import Mathlib

/-! Taskwarrior-tui: a shallow embedding of `main.go`.

The development follows the file top to bottom:

* the duration formatter (`unit`, `units`, `fmtDuration`);
* the argument tokenizer (`splitFields`, on top of a model of Go's
  `strings.FieldsFunc`);
* the confirmation-line pattern (`getTaskID`, on top of a small leftmost-first
  matcher for the pattern `Created task (\d+).`);
* the table of rows (`setCell`, `insertRow`, `RemoveRow`) and the start-up load
  (`sortTasks`, `loadTable`);
* the command gateway (`runCommand`) and the handlers of the key events
  (`createTask`, `completeTask`, `deleteTask`, `step`).

Strings are Lean strings, handled as lists of characters.  Go's `time.Duration`
and `time.Time` are integers counting nanoseconds.
-/

namespace TaskwarriorTui

/-! ## Duration formatter -/

/-- Go's `time.Duration`: a signed count of nanoseconds (an `int64` in Go). -/
abbrev Duration := Int

def nanosecond : Duration := 1
def second : Duration := 1000000000 * nanosecond
def minute : Duration := 60 * second
def hour : Duration := 60 * minute

/-- The entries of the ladder: `type unit struct { duration; label }`. -/
structure unit where
  duration : Duration
  label : String
  deriving DecidableEq, Repr

/-- The ladder `var units = []unit{...}`, largest first. -/
def units : List unit :=
  [ { duration := 365 * 24 * hour, label := "y" },
    { duration := 30 * 24 * hour, label := "mo" },
    { duration := 7 * 24 * hour, label := "w" },
    { duration := 24 * hour, label := "d" },
    { duration := hour, label := "h" },
    { duration := minute, label := "min" },
    { duration := second, label := "s" } ]

/-- Go's `fmt.Sprintf("%d", q)`: the decimal rendering of an integer. -/
def sprintD (q : Int) : String := toString q

/-- The loop `for _, u := range units` of `fmtDuration`, over the units that are
still to be tried.  `d / u.duration` is Go's integer division, which truncates
toward zero. -/
def fmtDurationFrom : List unit → Duration → String
  | [], _ => ""
  | u :: us, d =>
    let q := Int.tdiv d u.duration
    if q > 0 then sprintD q ++ u.label else fmtDurationFrom us d

/-- The function `fmtDuration(d time.Duration) string`. -/
def fmtDuration (d : Duration) : String := fmtDurationFrom units d


/-! ## Argument tokenizer -/

/-- The single-quote character `'\''` (U+0027). -/
def singleQuote : Char := Char.ofNat 39

/-- The space character `' '` (U+0020). -/
def space : Char := Char.ofNat 32

/-- The closure handed to `strings.FieldsFunc` by `splitFields`.  Its captured
variable `inQuotes` is the state: the closure first toggles it on a quote and
then answers `r == ' ' && !inQuotes`. -/
def splitFieldsPred (inQuotes : Bool) (r : Char) : Bool × Bool :=
  let inQuotes := if r = singleQuote then !inQuotes else inQuotes
  (decide (r = space) && !inQuotes, inQuotes)

/-- The `span` of `strings.FieldsFunc`: the field `s[start:stop]`. -/
structure span where
  start : Nat
  stop : Nat
  deriving DecidableEq, Repr

/-- The first loop of Go's `strings.FieldsFunc`, `for end, rune := range s`,
calling `f` once on every character, in order.  `i` is the index `end` of the
character at the head of the remaining input, `st` the state of the closure,
`start` the variable `start` (negative when no field is open; `^start` is
`-start - 1`), `spans` the fields recorded so far.  Positions count characters
where Go counts bytes: the space and the quote are single bytes that occur in
no other character, so the fields are the same substrings. -/
def fieldsFuncScan {σ : Type} (f : σ → Char → Bool × σ) :
    List Char → Nat → σ → Int → List span → Int × List span
  | [], _, _, start, spans => (start, spans)
  | r :: rest, i, st, start, spans =>
    if (f st r).1 then
      if start ≥ 0 then
        fieldsFuncScan f rest (i + 1) (f st r).2 (-start - 1) (spans ++ [⟨start.toNat, i⟩])
      else
        fieldsFuncScan f rest (i + 1) (f st r).2 start spans
    else
      if start < 0 then
        fieldsFuncScan f rest (i + 1) (f st r).2 (i : Int) spans
      else
        fieldsFuncScan f rest (i + 1) (f st r).2 start spans

/-- The spans `strings.FieldsFunc` records: the loop from `start := -1`, then
`if start >= 0 { spans = append(spans, span{start, len(s)}) }`. -/
def fieldsFuncSpans {σ : Type} (f : σ → Char → Bool × σ) (st : σ) (s : List Char) : List span :=
  let r := fieldsFuncScan f s 0 st (-1) []
  if r.1 ≥ 0 then r.2 ++ [⟨r.1.toNat, s.length⟩] else r.2

/-- The substring `s[start:stop]`. -/
def slice (s : List Char) (sp : span) : List Char := (s.drop sp.start).take (sp.stop - sp.start)

/-- Go's `strings.FieldsFunc(s, f)` for a closure `f` with state `st`. -/
def fieldsFunc {σ : Type} (f : σ → Char → Bool × σ) (st : σ) (s : List Char) : List (List Char) :=
  (fieldsFuncSpans f st s).map (slice s)

/-- The function `splitFields(s string) []string`: `inQuotes := false`, then
`strings.FieldsFunc` with the closure. -/
def splitFields (s : String) : List String :=
  (fieldsFunc splitFieldsPred false s.data).map String.mk

/-- The number of single quotes among the first `i` characters of `s`. -/
def quotesBefore (s : List Char) (i : Nat) : Nat := (s.take i).count singleQuote

/-- A split point, in the words of the specification: a space that is preceded
by an even number of single quotes. -/
def isSplitPoint (s : List Char) (i : Nat) : Prop :=
  s[i]? = some space ∧ quotesBefore s i % 2 = 0

instance (s : List Char) (i : Nat) : Decidable (isSplitPoint s i) := by
  unfold isSplitPoint; infer_instance

/-- The maximal non-empty runs between split points, in the words of the
specification: `sp` is a non-empty range of `s` without a split point that can
be extended neither to the left nor to the right. -/
def isMaximalRun (s : List Char) (sp : span) : Prop :=
  sp.start < sp.stop ∧ sp.stop ≤ s.length ∧
  (∀ i, sp.start ≤ i → i < sp.stop → ¬ isSplitPoint s i) ∧
  (sp.start = 0 ∨ isSplitPoint s (sp.start - 1)) ∧
  (sp.stop = s.length ∨ isSplitPoint s sp.stop)

/-! ## Confirmation line -/

/-- The class `\d` of Go's `regexp`: an ASCII digit. -/
def isDigit (c : Char) : Bool := c.isDigit

/-- The class `.` of Go's `regexp` without the `s` flag: any character but the
newline. -/
def isAnyButNewline (c : Char) : Bool := decide (c ≠ Char.ofNat 10)

/-- Matching the literal part of a pattern at the head of the input; the
answer is the input that remains. -/
def matchLiteral : List Char → List Char → Option (List Char)
  | [], s => some s
  | _ :: _, [] => none
  | p :: ps, c :: s => if p = c then matchLiteral ps s else none

/-- Matching `(\d+).` at the head of the input; the answer is the text of the
group.  `\d+` is greedy: a longer repetition is tried first and the shorter
one only when the rest of the pattern fails after the longer one. -/
def matchDigitsThenAny : List Char → Option (List Char)
  | [] => none
  | c :: s =>
    if isDigit c then
      match matchDigitsThenAny s with
      | some cap => some (c :: cap)
      | none =>
        match s with
        | [] => none
        | x :: _ => if isAnyButNewline x then some [c] else none
    else none

/-- Matching the pattern `Created task (\d+).` at the head of the input. -/
def matchHere (s : List Char) : Option (List Char) :=
  (matchLiteral "Created task ".data s).bind matchDigitsThenAny

/-- Go's `re.FindStringSubmatch(s)` for the pattern: the leftmost match; the
answer is `match[1]`, the text of the group, and `none` stands for `nil`. -/
def findStringSubmatch : List Char → Option (List Char)
  | [] => matchHere []
  | c :: s =>
    match matchHere (c :: s) with
    | some cap => some cap
    | none => findStringSubmatch s

/-- The function `getTaskID(s string) string`. -/
def getTaskID (s : String) : String :=
  match findStringSubmatch s.data with
  | some cap => String.mk cap
  | none => ""

/-! ### Invariant of the scanning loop -/

/-- The field that is open in the loop of `strings.FieldsFunc`: the value of
`start` when it is non-negative. -/
def openField (start : Int) : Option Nat := if start ≥ 0 then some start.toNat else none

/-- A recorded span is a closed field: a non-empty range without a separator,
with a separator (or the start of the input) before it and a separator at its
end. -/
def closedField (P : Nat → Prop) (n : Nat) (sp : span) : Prop :=
  sp.start < sp.stop ∧ sp.stop < n ∧ (∀ i, sp.start ≤ i → i < sp.stop → ¬ P i) ∧
  (sp.start = 0 ∨ P (sp.start - 1)) ∧ P sp.stop

/-- Every index before `n` that is no separator lies in a recorded span. -/
def coveredBefore (P : Nat → Prop) (n : Nat) (spans : List span) : Prop :=
  ∀ i, i < n → ¬ P i → ∃ sp ∈ spans, sp.start ≤ i ∧ i < sp.stop

/-- The invariant of the loop of `strings.FieldsFunc` after `n` characters,
for the separator positions `P`. -/
def scanInv (P : Nat → Prop) (n : Nat) (o : Option Nat) (spans : List span) : Prop :=
  (∀ sp ∈ spans, closedField P n sp) ∧
  spans.Pairwise (fun a b => a.stop < b.start) ∧
  match o with
  | none => coveredBefore P n spans ∧ (n = 0 ∨ P (n - 1))
  | some a =>
    a < n ∧ (∀ i, a ≤ i → i < n → ¬ P i) ∧ (a = 0 ∨ P (a - 1)) ∧
    (∀ sp ∈ spans, sp.stop < a) ∧ coveredBefore P a spans

/-- What the spans of `strings.FieldsFunc` are on an input of length `len`
with separator positions `P`. -/
def fieldSpans (P : Nat → Prop) (len : Nat) (spans : List span) : Prop :=
  (∀ sp ∈ spans, sp.start < sp.stop ∧ sp.stop ≤ len ∧
    (∀ i, sp.start ≤ i → i < sp.stop → ¬ P i) ∧
    (sp.start = 0 ∨ P (sp.start - 1)) ∧ (sp.stop = len ∨ P sp.stop)) ∧
  spans.Pairwise (fun a b => a.stop < b.start) ∧
  coveredBefore P len spans

/-! ## Time -/

/-- Go's `time.Time`: an instant, as a count of nanoseconds. -/
abbrev Time := Int

/-- The largest `time.Duration`, `1<<63 - 1`. -/
def maxDuration : Duration := 9223372036854775807

/-- The smallest `time.Duration`, `-1 << 63`. -/
def minDuration : Duration := -9223372036854775808

/-- Go's `t.Sub(u)`: the duration `t - u`, or the largest (smallest) duration
when `t - u` does not fit an `int64`. -/
def timeSub (t u : Time) : Duration :=
  if t - u > maxDuration then maxDuration
  else if t - u < minDuration then minDuration
  else t - u

/-- Go's `t.After(u)`. -/
def timeAfter (t u : Time) : Bool := decide (t > u)

/-! ## Tasks -/

/-- The record `type Task struct`.  The urgency, a finite `float32` read from
JSON, is the rational number it denotes. -/
structure Task where
  ID : Int
  Age : String
  Description : String
  Due : String
  Entry : String
  Modified : String
  Priority : String
  Project : String
  Status : String
  UUID : String
  Urgency : Rat
  deriving DecidableEq, Repr

/-- The library functions `main.go` calls on data: they are parameters of the
model. -/
structure Env where
  /-- Go's `time.Parse(layout, s)` for `layout = "20060102T150405Z"`; `none`
  stands for an error. -/
  parse : String → Option Time
  /-- Go's `fmt.Sprintf("%.2f", x)`. -/
  sprintF2 : Rat → String
  /-- Go's `json.Unmarshal(b, &tasks)` on a non-empty input, for
  `var tasks []Task`; `none` stands for an error. -/
  unmarshal : String → Option (List Task)
  /-- Whether `app.SetRoot(pages, true).SetFocus(taskTable).Run()` returns an
  error: `Run` does so when it cannot set up the terminal screen, before it
  handles any event. -/
  runFails : Bool

/-- Go's `time.Parse(layout, s)`: the empty string is an error, it does not
hold the year the layout starts with. -/
def timeParse (env : Env) (s : String) : Option Time :=
  if s = "" then none else env.parse s

/-- Go's `json.Unmarshal(b, &tasks)`: an empty input (also the `nil` that
`runCommand` returns after a failure) is an error, "unexpected end of JSON
input". -/
def unmarshalTasks (env : Env) (b : String) : Option (List Task) :=
  if b = "" then none else env.unmarshal b

/-! ## The table (`tview.Table`) -/

/-- The colours the program uses: `tview.Styles.PrimaryTextColor`, which
`tview.NewTableCell` gives a cell, the zero value of `tcell.Color`, and the
three of `priorityToColor`. -/
inductive Color where
  | primaryText
  | zero
  | red
  | color250
  | color245
  deriving DecidableEq, Repr

/-- A cell, `tview.TableCell`: what the program sets of it. -/
structure TableCell where
  Text : String
  Color : Color
  NotSelectable : Bool
  deriving DecidableEq, Repr

/-- The cell `&TableCell{}`. -/
def emptyCell : TableCell := { Text := "", Color := Color.zero, NotSelectable := false }

/-- The cell of `tview.NewTableCell(text)`. -/
def NewTableCell (text : String) : TableCell :=
  { Text := text, Color := Color.primaryText, NotSelectable := false }

/-- The content of a `tview.Table`: its rows of cells. -/
abbrev Table := List (List TableCell)

/-- The method `GetRowCount`. -/
def GetRowCount (t : Table) : Nat := t.length

/-- The method `SetCell(row, column, cell)`: the table grows to hold the row,
the row grows to hold the column (new cells are `&TableCell{}`), and the cell is
stored. -/
def SetCell (t : Table) (row col : Nat) (c : TableCell) : Table :=
  let t1 := t ++ List.replicate (row + 1 - t.length) []
  let r := t1.getD row []
  let r1 := r ++ List.replicate (col + 1 - r.length) emptyCell
  t1.set row (r1.set col c)

/-- The method `GetCell(row, column)`: a position outside the table gives
`&TableCell{}`. -/
def GetCell (t : Table) (row col : Nat) : TableCell := (t.getD row []).getD col emptyCell

/-- The method `InsertRow(row)`: an empty row before row `row`; without effect
when `row` is not a row of the table. -/
def InsertRow (t : Table) (row : Nat) : Table :=
  if row ≥ t.length then t else t.take row ++ [[]] ++ t.drop row

/-- The method `RemoveRow(row)`: without effect when `row` is not a row of the
table. -/
def RemoveRow (t : Table) (row : Nat) : Table :=
  if row ≥ t.length then t else t.eraseIdx row

def priorityHigh : String := "H"
def priorityMedium : String := "M"
def priorityLow : String := "L"

/-- The map `priorityToColor`; a key that is not in the map gives the zero
value. -/
def priorityToColor (priority : String) : Color :=
  if priority = priorityHigh then Color.red
  else if priority = priorityMedium then Color.color250
  else if priority = priorityLow then Color.color245
  else Color.zero

/-- The function `setCell(table, row, col, priority, text)`. -/
def setCell (table : Table) (row col : Nat) (priority : String) (text : String) : Table :=
  if priority = "" then
    SetCell table row col (NewTableCell text)
  else
    SetCell table row col { NewTableCell text with Color := priorityToColor priority }

/-- Go's `strconv.Itoa`. -/
def Itoa (n : Int) : String := toString n

/-- The function `insertRow(table, task)`.  `nowAge` and `nowDue` are the two
readings of `time.Now()`, the one for the age and the one for the due date. -/
def insertRow (env : Env) (nowAge nowDue : Time) (table : Table) (task : Task) : Table :=
  let rowCount := GetRowCount table
  let table := InsertRow table rowCount
  let table := setCell table rowCount 0 task.Priority (Itoa task.ID)
  let table :=
    match timeParse env task.Entry with
    | some age => setCell table rowCount 1 task.Priority (fmtDuration (timeSub nowAge age))
    | none => table
  let table := setCell table rowCount 2 task.Priority task.Priority
  let table := setCell table rowCount 3 task.Priority task.Project
  let table :=
    if task.Due = "" then
      SetCell table rowCount 4 (NewTableCell "")
    else
      match timeParse env task.Due with
      | some due =>
        if timeAfter due nowDue then
          setCell table rowCount 4 task.Priority (fmtDuration (timeSub due nowDue))
        else
          setCell table rowCount 4 task.Priority ("-" ++ fmtDuration (timeSub nowDue due))
      | none => table
  let table := setCell table rowCount 5 task.Priority task.Description
  setCell table rowCount 6 task.Priority (env.sprintF2 task.Urgency)

/-- The character `-` (U+002D). -/
def dash : Char := Char.ofNat 45

/-- The row `insertRow` builds for a task: the one row it puts into an empty
table. -/
def renderRow (env : Env) (nowAge nowDue : Time) (task : Task) : List TableCell :=
  (insertRow env nowAge nowDue [] task).getD 0 []

/-- The text of the Due column of a row. -/
def dueColumn (row : List TableCell) : String := (row.getD 4 emptyCell).Text

/-! ## Start-up: the sorted load -/

/-- The comparison handed to `sort.SliceStable`:
`tasks[i].Urgency > tasks[j].Urgency`. -/
def less (a b : Task) : Bool := decide (a.Urgency > b.Urgency)

/-- The inner loop of the insertion sort behind `sort.SliceStable`,
`for j := i; j > a && less(data[j], data[j-1]); j-- { swap }`: the element `x`
moves toward the front past every element it is `less` than and stops at the
first one it is not.  The sorted part comes last element first. -/
def sinkInto {α : Type} (lt : α → α → Bool) (x : α) : List α → List α
  | [] => [x]
  | y :: ys => if lt x y then y :: sinkInto lt x ys else x :: y :: ys

/-- Go's `sort.SliceStable(x, less)`, as the insertion sort it runs on short
slices (on longer ones it merges blocks sorted this way, to the same stable
order): each element in turn sinks into the sorted part before it. -/
def SliceStable {α : Type} (lt : α → α → Bool) (l : List α) : List α :=
  (l.foldl (fun sorted x => sinkInto lt x sorted) []).reverse

/-- The rows of a list of tasks, one after the other; `clock k` holds the two
readings of `time.Now()` for the `k`-th of them. -/
def renderRows (env : Env) (clock : Nat → Time × Time) : Nat → List Task → List (List TableCell)
  | _, [] => []
  | k, task :: tasks =>
    renderRow env (clock k).1 (clock k).2 task :: renderRows env clock (k + 1) tasks

/-- The tasks in the order of the rows: `sort.SliceStable(tasks, ...)`. -/
def sortTasks (tasks : List Task) : List Task := SliceStable less tasks

def numberOfColumns : Nat := 7

def taskHeaders : List String := ["ID", "Age", "P", "Project", "Due", "Description", "Urg"]

/-- The loops computing `longestWidthOfProject` and
`longestWidthOfDescription`; `len` counts bytes. -/
def longestWidth (field : Task → String) (tasks : List Task) : Nat :=
  tasks.foldl (fun w task => if (field task).utf8ByteSize > w then (field task).utf8ByteSize else w) 0

/-- Go's `strings.Repeat("-", n)`. -/
def dashes (n : Nat) : String := String.mk (List.replicate n (Char.ofNat 45))

def taskSeparators (tasks : List Task) : List String :=
  ["--", "---", "--", dashes (longestWidth Task.Project tasks), "---",
    dashes (longestWidth Task.Description tasks), dashes 5]

/-- A loop `for col := 0; col < numberOfColumns; col++` that sets the cells of
one row to unselectable cells with the given texts. -/
def setFixedRow (t : Table) (row : Nat) (texts : List String) : Table :=
  (List.range numberOfColumns).foldl
    (fun t col => SetCell t row col { NewTableCell (texts.getD col "") with NotSelectable := true }) t

/-- The loop `for _, task := range tasks { insertRow(taskTable, task) }`;
`clock k` holds the two readings of `time.Now()` of the `k`-th call. -/
def insertRows (env : Env) (clock : Nat → Time × Time) : Nat → Table → List Task → Table
  | _, t, [] => t
  | k, t, task :: tasks =>
    insertRows env clock (k + 1) (insertRow env (clock k).1 (clock k).2 t task) tasks

/-- The table `main` builds at start-up from the exported tasks: the header,
the separators, then one row for each task, in the sorted order. -/
def loadTable (env : Env) (clock : Nat → Time × Time) (tasks : List Task) : Table :=
  let tasks := sortTasks tasks
  let t := setFixedRow [] 0 taskHeaders
  let t := setFixedRow t 1 (taskSeparators tasks)
  insertRows env clock 0 t tasks

/-! ## Command gateway -/

/-- What `exec.Command(...).CombinedOutput()` returns: the output and whether
`err != nil`. -/
structure CmdResult where
  out : String
  failed : Bool
  deriving DecidableEq, Repr

/-- The engine: the external program `task`, with a state of its own.  Every
behaviour of the engine is an `Engine`. -/
structure Engine (σ : Type) where
  exec : σ → List String → CmdResult × σ

/-- Which primitive holds the focus. -/
inductive Focus where
  | taskTable
  | descriptionTextView
  | newTaskInputField
  | deleteTaskModal
  | mainFlex
  deriving DecidableEq, Repr

/-- The state of the program: the widgets `main` creates and the engine.
`newTaskPage` is `none` until the page `newTask` is added and then holds
whether the page is visible; `deleteTaskPage` holds whether the page
`deleteTask` is visible; `doneFunc` holds the `row` and `taskID` that the
function given to `deleteTaskModal.SetDoneFunc` has captured.  `calls` is the
history of the argument lists the engine was run with. -/
structure UI (σ : Type) where
  taskTable : Table
  selectedRow : Nat
  descriptionText : String
  commandLog : List String
  focus : Focus
  newTaskPage : Option Bool
  deleteTaskPage : Bool
  modalText : String
  doneFunc : Option (Nat × String)
  engine : σ
  calls : List (List String)

/-- The function `runCommand(args ...string) []byte`: the output of the engine
when it succeeds; after a failure the output goes to the command log and the
result is `nil`, here the empty string. -/
def runCommand {σ : Type} (E : Engine σ) (u : UI σ) (args : List String) : String × UI σ :=
  let r := E.exec u.engine args
  if r.1.failed then
    ("", { u with engine := r.2, calls := u.calls ++ [args], commandLog := u.commandLog ++ [r.1.out] })
  else
    (r.1.out, { u with engine := r.2, calls := u.calls ++ [args] })

/-! ## Handlers -/

/-- Why the process stopped: the `panic(err)` after `json.Unmarshal`, the
run-time panic of `tasks[0]` on an empty slice, or the `panic(err)` after
`app.Run()`. -/
inductive Panic where
  | unmarshalError
  | indexOutOfRange
  | runError
  deriving DecidableEq, Repr

/-- The outcome of a handler: the program runs on in a state, or the process
has stopped by a panic in a state. -/
inductive Outcome (σ : Type) where
  | running (u : UI σ)
  | panicked (p : Panic) (u : UI σ)

/-- The state of an outcome. -/
def Outcome.state {σ : Type} : Outcome σ → UI σ
  | Outcome.running u => u
  | Outcome.panicked _ u => u

/-- Whether the process has stopped. -/
def Outcome.isPanic {σ : Type} : Outcome σ → Bool
  | Outcome.running _ => false
  | Outcome.panicked _ _ => true

def newline : Char := Char.ofNat 10

/-- Go's `strings.TrimSuffix(s, "\n")`. -/
def trimSuffixNewline (s : List Char) : List Char :=
  if s.getLast? = some newline then s.dropLast else s

/-- Go's `strings.Split(s, "\n")`: never an empty list. -/
def splitNewline : List Char → List (List Char)
  | [] => [[]]
  | c :: s =>
    if c = newline then [] :: splitNewline s
    else
      match splitNewline s with
      | [] => [[c]]
      | l :: ls => (c :: l) :: ls

/-- The lines `strings.Split(strings.TrimSuffix(string(out), "\n"), "\n")`. -/
def outputLines (out : String) : List String :=
  (splitNewline (trimSuffixNewline out.data)).map String.mk

/-- The focus after `pages.ShowPage`, `pages.HidePage` or `pages.AddPage` when
the pages hold the focus: the last visible page of `main`, `deleteTask`,
`newTask`; the page `main`, a `Flex` none of whose items takes the focus, keeps
it itself. -/
def topPageFocus {σ : Type} (u : UI σ) : Focus :=
  if u.newTaskPage = some true then Focus.newTaskInputField
  else if u.deleteTaskPage then Focus.deleteTaskModal
  else Focus.mainFlex

/-- The two lines `pages.HidePage(pageNewTask)`, `app.SetFocus(taskTable)`. -/
def hideNewTaskPage {σ : Type} (u : UI σ) : UI σ :=
  { u with newTaskPage := u.newTaskPage.map (fun _ => false), focus := Focus.taskTable }

/-- The two lines `pages.HidePage(pageDeleteTask)`, `app.SetFocus(taskTable)`. -/
def hideDeleteTaskPage {σ : Type} (u : UI σ) : UI σ :=
  { u with deleteTaskPage := false, focus := Focus.taskTable }

/-- The branch `case tcell.KeyEnter` of the function given to
`newTaskInputField.SetDoneFunc`: the Create mutation, on the text `desc` of the
input field. -/
def createTask {σ : Type} (env : Env) (E : Engine σ) (nowAge nowDue : Time) (u : UI σ)
    (desc : String) : Outcome σ :=
  let args := "add" :: splitFields desc
  let r := runCommand E u args
  let lines := outputLines r.1
  if lines.length ≥ 1 then
    let r2 := runCommand E r.2 [getTaskID (lines.getD 0 ""), "export"]
    match unmarshalTasks env r2.1 with
    | none => Outcome.panicked Panic.unmarshalError r2.2
    | some [] => Outcome.panicked Panic.indexOutOfRange r2.2
    | some (task :: _) =>
      Outcome.running (hideNewTaskPage
        { r2.2 with taskTable := insertRow env nowAge nowDue r2.2.taskTable task })
  else
    Outcome.running (hideNewTaskPage r.2)

/-- The two commands of the Create mutation on the text `desc`: the `add`, then
the export of the identifier read off the first line; the result is the output
of the export and the state after it. -/
def createExport {σ : Type} (E : Engine σ) (u : UI σ) (desc : String) : String × UI σ :=
  let r := runCommand E u ("add" :: splitFields desc)
  runCommand E r.2 [getTaskID ((outputLines r.1).getD 0 ""), "export"]

/-- Whether the export of the Create mutation failed (`err != nil`). -/
def createExportFailed {σ : Type} (E : Engine σ) (u : UI σ) (desc : String) : Bool :=
  let r := runCommand E u ("add" :: splitFields desc)
  (E.exec r.2.engine [getTaskID ((outputLines r.1).getD 0 ""), "export"]).1.failed

/-- The branch `case 'e'`: the Edit mutation. -/
def editTask {σ : Type} (E : Engine σ) (u : UI σ) : UI σ :=
  (runCommand E u [(GetCell u.taskTable u.selectedRow 0).Text, "edit"]).2

/-- The branch `case 'd'`: the Complete mutation. -/
def completeTask {σ : Type} (E : Engine σ) (u : UI σ) : UI σ :=
  let row := u.selectedRow
  let r := runCommand E u [(GetCell u.taskTable row 0).Text, "done"]
  { r.2 with taskTable := RemoveRow r.2.taskTable row, commandLog := r.2.commandLog ++ [r.1] }

/-- The branch `case 'a'`: the done function of the input field is set and the
page `newTask` is added, visible, as the last page. -/
def openNewTask {σ : Type} (u : UI σ) : UI σ :=
  let u1 := { u with newTaskPage := some true }
  { u1 with focus := topPageFocus u1 }

/-- The branch `case 'x'`: the modal gets its text and its done function, which
captures `row` and `taskID`, and the page `deleteTask` is shown. -/
def openDeleteTask {σ : Type} (u : UI σ) : UI σ :=
  let row := u.selectedRow
  let taskID := (GetCell u.taskTable row 0).Text
  let taskDesc := (GetCell u.taskTable row 5).Text
  let u1 := { u with
    modalText := "Delete task " ++ taskID ++ " '" ++ taskDesc ++ "'?",
    doneFunc := some (row, taskID),
    deleteTaskPage := true }
  { u1 with focus := topPageFocus u1 }

def buttonCancel : String := "Cancel"
def buttonDelete : String := "Delete"

/-- The branch `case buttonDelete` of the done function of the modal: the
Delete mutation. -/
def deleteTask {σ : Type} (E : Engine σ) (u : UI σ) (row : Nat) (taskID : String) : UI σ :=
  let u1 := { u with taskTable := RemoveRow u.taskTable row }
  let r := runCommand E u1 ["rc.confirmation=off", taskID, "delete"]
  let u2 := { r.2 with deleteTaskPage := false }
  let u3 := { u2 with focus := topPageFocus u2 }
  if GetRowCount u3.taskTable > 0 then { u3 with focus := Focus.taskTable } else u3

/-- The done function of the modal, `func(buttonIndex int, buttonLabel string)`. -/
def modalDone {σ : Type} (E : Engine σ) (u : UI σ) (buttonLabel : String) : UI σ :=
  match u.doneFunc with
  | none => u
  | some (row, taskID) =>
    if buttonLabel = buttonCancel then hideDeleteTaskPage u
    else if buttonLabel = buttonDelete then deleteTask E u row taskID
    else u

/-- The function given to `taskTable.SetSelectionChangedFunc`. -/
def selectionChanged {σ : Type} (E : Engine σ) (u : UI σ) (row : Nat) : UI σ :=
  if row = 0 then { u with descriptionText := "" }
  else
    let r := runCommand E u [(GetCell u.taskTable row 0).Text]
    { r.2 with descriptionText := r.1 }

/-! ## The event loop -/

/-- What the event loop delivers: a key with a rune, Escape, Enter (with the
text the input field holds at that moment), the activation of a button of the
modal, and a move of the selection of the table to a row. -/
inductive Event where
  | rune (c : Char)
  | keyEsc
  | keyEnter (text : String)
  | button (label : String)
  | select (row : Nat)
  deriving DecidableEq, Repr

/-- An event together with the readings of `time.Now()` while it is handled. -/
structure Input where
  event : Event
  nowAge : Time
  nowDue : Time

/-- The function given to `taskTable.SetInputCapture`, on a rune. -/
def taskTableCapture {σ : Type} (E : Engine σ) (u : UI σ) (c : Char) : UI σ :=
  if c = 'a' then openNewTask u
  else if c = 'e' then editTask E u
  else if c = 'd' then completeTask E u
  else if c = 'x' then openDeleteTask u
  else u

/-- One turn of the event loop.  The function given to `app.SetInputCapture`
sees a rune first (`1` and `2` move the focus and consume the key); every other
event goes to the primitive that holds the focus: the table (input capture and
selection changes), the input field (its done function), the modal (its input
capture on Escape, after which the done function runs with the empty label, and
its done function on a button). -/
def step {σ : Type} (env : Env) (E : Engine σ) (u : UI σ) (i : Input) : Outcome σ :=
  match i.event with
  | Event.rune c =>
    if c = '1' then Outcome.running { u with focus := Focus.taskTable }
    else if c = '2' then Outcome.running { u with focus := Focus.descriptionTextView }
    else
      match u.focus with
      | Focus.taskTable => Outcome.running (taskTableCapture E u c)
      | _ => Outcome.running u
  | Event.keyEsc =>
    match u.focus with
    | Focus.newTaskInputField => Outcome.running (hideNewTaskPage u)
    | Focus.deleteTaskModal => Outcome.running (modalDone E (hideDeleteTaskPage u) "")
    | _ => Outcome.running u
  | Event.keyEnter text =>
    match u.focus with
    | Focus.newTaskInputField => createTask env E i.nowAge i.nowDue u text
    | _ => Outcome.running u
  | Event.button label =>
    match u.focus with
    | Focus.deleteTaskModal => Outcome.running (modalDone E u label)
    | _ => Outcome.running u
  | Event.select row =>
    match u.focus with
    | Focus.taskTable => Outcome.running (selectionChanged E { u with selectedRow := row } row)
    | _ => Outcome.running u

/-- The event loop on a list of inputs: it stops at a panic. -/
def run {σ : Type} (env : Env) (E : Engine σ) : UI σ → List Input → Outcome σ
  | u, [] => Outcome.running u
  | u, i :: is =>
    match step env E u i with
    | Outcome.running u1 => run env E u1 is
    | Outcome.panicked p u1 => Outcome.panicked p u1

/-- The state before `main` has run a command. -/
def initialUI {σ : Type} (st : σ) : UI σ :=
  { taskTable := [], selectedRow := 0, descriptionText := "", commandLog := [],
    focus := Focus.mainFlex, newTaskPage := none, deleteTaskPage := false, modalText := "",
    doneFunc := none, engine := st, calls := [] }

/-- The start of `main`, up to the first event: the bulk export, `panic(err)`
when it cannot be deserialized, the sorted load, the selection of row 2, the
first fill of the description pane, the focus on the table, and `app.Run()`
with its `panic(err)` when `Run` returns an error. -/
def startup {σ : Type} (env : Env) (E : Engine σ) (clock : Nat → Time × Time) (st : σ) :
    Outcome σ :=
  let r := runCommand E (initialUI st) ["+PENDING", "export"]
  match unmarshalTasks env r.1 with
  | none => Outcome.panicked Panic.unmarshalError r.2
  | some tasks =>
    let table := loadTable env clock tasks
    let u1 := { r.2 with taskTable := table, selectedRow := 2 }
    let u2 :=
      if GetRowCount table > 1 then
        let d := runCommand E u1 [(GetCell table 1 0).Text]
        { d.2 with descriptionText := d.1 }
      else u1
    let u3 := { u2 with focus := Focus.taskTable }
    if env.runFails then Outcome.panicked Panic.runError u3 else Outcome.running u3

/-- The interaction modes of the specification, read off the focus: the input
field has it in CreateEntry, the modal in ConfirmDelete, and the mode is Normal
otherwise. -/
inductive Mode where
  | Normal
  | CreateEntry
  | ConfirmDelete
  deriving DecidableEq, Repr

def UI.mode {σ : Type} (u : UI σ) : Mode :=
  match u.focus with
  | Focus.newTaskInputField => Mode.CreateEntry
  | Focus.deleteTaskModal => Mode.ConfirmDelete
  | _ => Mode.Normal

/-- An invocation of the engine with the `delete` subcommand: the word
`delete` is among the arguments of a command line that is no `add` (after
`add` every argument is text of the new task).  The lines
`rc.confirmation=off <id> delete`, `<id> delete` and `delete` all count. -/
def isDeleteCall (args : List String) : Bool :=
  decide (args.head? ≠ some "add") && decide ("delete" ∈ args)

/-- No row of the table has the word `delete` as the text of its ID column. -/
def idColumnClean (t : Table) : Prop :=
  ∀ r ∈ t, (r.getD 0 emptyCell).Text ≠ "delete"

/-- The invocations of the engine that a handler made: what the history of an
outcome holds beyond the history of the state the handler started in. -/
def newCalls {σ : Type} (u : UI σ) (o : Outcome σ) : List (List String) :=
  o.state.calls.drop u.calls.length

/-! ## Sample data -/

/-- A task as the engine exports it. -/
def sampleTask : Task :=
  { ID := 7, Age := "", Description := "buy milk", Due := "20261106T000000Z",
    Entry := "20261102T000000Z", Modified := "", Priority := "H", Project := "home",
    Status := "pending", UUID := "u-7", Urgency := 5 }

/-- The export of `sampleTask`, a JSON array of one record. -/
def sampleJSON : String :=
  "[\x7b\"id\":7,\"description\":\"buy milk\",\"due\":\"20261106T000000Z\"," ++
  "\"entry\":\"20261102T000000Z\",\"priority\":\"H\",\"project\":\"home\"," ++
  "\"status\":\"pending\",\"uuid\":\"u-7\",\"urgency\":5\x7d]"

/-- The instant 2026-11-02T00:00:00Z, in nanoseconds since 1970. -/
def nov2 : Time := 1793577600 * second

/-- The instant 9999-12-30T00:00:00Z, in nanoseconds since 1970. -/
def farDue : Time := 253402128000 * second

/-- A task that is due on 9999-12-30. -/
def farTask : Task := { sampleTask with ID := 8, Due := "99991230T000000Z", UUID := "u-8" }

/-- The library functions on the sample data: the timestamps of `sampleTask`
and `farTask`, the urgency 5, the JSON texts `sampleJSON` and `[]`, and a
terminal on which `Run` sets up its screen. -/
def sampleEnv : Env :=
  { parse := fun s =>
      if s = "20261102T000000Z" then some nov2
      else if s = "20261106T000000Z" then some (nov2 + 4 * 24 * hour)
      else if s = "99991230T000000Z" then some farDue
      else none,
    sprintF2 := fun x => if x = 5 then "5.00" else "0.00",
    unmarshal := fun b =>
      if b = sampleJSON then some [sampleTask]
      else if b = "[]" then some []
      else none,
    runFails := false }

/-- An engine without pending tasks that accepts every `add` as task 7 and
exports task 7 as `sampleJSON`. -/
def sampleEngine : Engine Unit :=
  { exec := fun st args =>
      if args.head? = some "add" then ({ out := "Created task 7.\n", failed := false }, st)
      else if args = ["7", "export"] then ({ out := sampleJSON, failed := false }, st)
      else if args = ["+PENDING", "export"] then ({ out := "[]", failed := false }, st)
      else ({ out := "", failed := false }, st) }

/-- An engine that rejects every `add` and answers an export without a filter
with `sampleJSON`. -/
def rejectingEngine : Engine Unit :=
  { exec := fun st args =>
      if args.head? = some "add" then
        ({ out := "Additional text must be provided.\n", failed := true }, st)
      else if args = ["", "export"] then ({ out := sampleJSON, failed := false }, st)
      else if args = ["+PENDING", "export"] then ({ out := "[]", failed := false }, st)
      else ({ out := "", failed := false }, st) }

/-- An engine that accepts every `add` as task 7 and fails on the export of a
single task. -/
def brokenExportEngine : Engine Unit :=
  { exec := fun st args =>
      if args.head? = some "add" then ({ out := "Created task 7.\n", failed := false }, st)
      else if args = ["+PENDING", "export"] then ({ out := "[]", failed := false }, st)
      else ({ out := "Could not read the task database.\n", failed := true }, st) }

/-- An engine with one pending task, `sampleTask`. -/
def pendingEngine : Engine Unit :=
  { exec := fun st args =>
      if args = ["+PENDING", "export"] then ({ out := sampleJSON, failed := false }, st)
      else ({ out := "", failed := false }, st) }

/-- A clock that stands at 2026-11-04T00:00:00Z. -/
def sampleClock : Nat → Time × Time := fun _ => (nov2 + 2 * 24 * hour, nov2 + 2 * 24 * hour)

/-- The state in which the input field is open: start-up on the given engine
without pending tasks, then the key `a`. -/
def entryUI (E : Engine Unit) : UI Unit :=
  openNewTask (startup sampleEnv E sampleClock ()).state

/-- The state after start-up on the engine with one pending task. -/
def pendingUI : UI Unit := (startup sampleEnv pendingEngine sampleClock ()).state

/-- An input at 2026-11-04T00:00:00Z. -/
def inputAt (e : Event) : Input :=
  { event := e, nowAge := nov2 + 2 * 24 * hour, nowDue := nov2 + 2 * 24 * hour }

/-- The input Enter on a text, with the clock at 2026-11-04T00:00:00Z. -/
def enterInput (text : String) : Input :=
  { event := Event.keyEnter text, nowAge := nov2 + 2 * 24 * hour, nowDue := nov2 + 2 * 24 * hour }

/-! # Theorems -/

set_option maxRecDepth 1000000

/-! ### Facts about the formatter -/

theorem fmtDurationFrom_skip (u : unit) (us : List unit) (d : Duration)
    (h : ¬ Int.tdiv d u.duration > 0) :
    fmtDurationFrom (u :: us) d = fmtDurationFrom us d := by
  simp [fmtDurationFrom, h]

theorem fmtDurationFrom_hit (u : unit) (us : List unit) (d : Duration)
    (h : Int.tdiv d u.duration > 0) :
    fmtDurationFrom (u :: us) d = sprintD (Int.tdiv d u.duration) ++ u.label := by
  simp [fmtDurationFrom, h]

/-- On a non-negative span and a positive unit the truncated quotient is
positive exactly when the unit fits. -/
theorem tdiv_pos_iff (d c : Int) (hd : 0 ≤ d) (hc : 0 < c) :
    Int.tdiv d c > 0 ↔ c ≤ d := by
  rw [Int.tdiv_eq_ediv hd (le_of_lt hc)]
  constructor
  · intro h
    by_contra hlt
    have : d / c = 0 := Int.ediv_eq_zero_of_lt hd (not_le.mp hlt)
    omega
  · intro h
    have h1 : (1 : Int) ≤ d / c := Int.le_ediv_of_mul_le hc (by simpa using h)
    omega

/-- The loop over a descending ladder of positive units: either no unit fits
and the result is empty, or the result is built from the largest unit that
fits. -/
theorem fmtDurationFrom_spec (us : List unit) (d : Duration) (hd : 0 ≤ d)
    (hpos : ∀ u ∈ us, 0 < u.duration)
    (hdesc : us.Pairwise (fun a b => b.duration ≤ a.duration)) :
    ((∀ u ∈ us, d < u.duration) ∧ fmtDurationFrom us d = "") ∨
    (∃ u ∈ us, u.duration ≤ d ∧ (∀ v ∈ us, v.duration ≤ d → v.duration ≤ u.duration) ∧
      fmtDurationFrom us d = sprintD (Int.tdiv d u.duration) ++ u.label) := by
  induction us with
  | nil => left; exact ⟨by simp, rfl⟩
  | cons u us ih =>
    have hu : 0 < u.duration := hpos u (List.mem_cons_self _ _)
    rw [List.pairwise_cons] at hdesc
    by_cases hfit : u.duration ≤ d
    · right
      refine ⟨u, List.mem_cons_self _ _, hfit, ?_, ?_⟩
      · intro v hv _
        rcases List.mem_cons.mp hv with rfl | hv
        · exact le_refl _
        · exact hdesc.1 v hv
      · exact fmtDurationFrom_hit u us d ((tdiv_pos_iff d _ hd hu).mpr hfit)
    · have hskip : fmtDurationFrom (u :: us) d = fmtDurationFrom us d :=
        fmtDurationFrom_skip u us d (fun h => hfit ((tdiv_pos_iff d _ hd hu).mp h))
      rcases ih (fun v hv => hpos v (List.mem_cons_of_mem _ hv)) hdesc.2 with ⟨hall, hres⟩ | ⟨w, hw, hwd, hmax, hres⟩
      · left
        refine ⟨?_, by rw [hskip, hres]⟩
        intro v hv
        rcases List.mem_cons.mp hv with rfl | hv
        · exact not_le.mp hfit
        · exact hall v hv
      · right
        refine ⟨w, List.mem_cons_of_mem _ hw, hwd, ?_, by rw [hskip, hres]⟩
        intro v hv hvd
        rcases List.mem_cons.mp hv with rfl | hv
        · exact absurd hvd hfit
        · exact hmax v hv hvd

theorem units_pos : ∀ u ∈ units, 0 < u.duration := by decide

theorem units_desc : units.Pairwise (fun a b => b.duration ≤ a.duration) := by decide

theorem units_desc_second : ∀ u ∈ units, second ≤ u.duration := by decide

theorem second_mem_units : ({ duration := second, label := "s" } : unit) ∈ units := by decide

/-- C1: on every non-negative span `d`, `fmtDuration d` is empty below one
second and otherwise is the decimal rendering of the truncated quotient
`d / U` followed by the label of `U`, the largest unit of the ladder that is
not larger than `d`; `3661 s` gives `1h`, `0` gives the empty string and `59 s`
gives `59s`. -/
theorem fmtDuration_largest_unit (d : Duration) (hd : 0 ≤ d) :
    (d < second → fmtDuration d = "") ∧
    (second ≤ d → ∃ u ∈ units, u.duration ≤ d ∧
      (∀ v ∈ units, v.duration ≤ d → v.duration ≤ u.duration) ∧
      fmtDuration d = sprintD (Int.tdiv d u.duration) ++ u.label) ∧
    units.map (fun u => (u.duration, u.label)) =
      [(365 * 24 * 3600 * 1000000000, "y"), (30 * 24 * 3600 * 1000000000, "mo"),
       (7 * 24 * 3600 * 1000000000, "w"), (24 * 3600 * 1000000000, "d"),
       (3600 * 1000000000, "h"), (60 * 1000000000, "min"), (1000000000, "s")] ∧
    fmtDuration (3661 * second) = "1h" ∧ fmtDuration 0 = "" ∧
    fmtDuration (59 * second) = "59s" := by
  refine ⟨?_, ?_, by decide, by decide, by decide, by decide⟩
  · intro hlt
    rcases fmtDurationFrom_spec units d hd units_pos units_desc with ⟨_, hres⟩ | ⟨u, hu, hud, _, _⟩
    · exact hres
    · exfalso
      exact absurd (le_trans (units_desc_second u hu) hud) (not_le.mpr hlt)
  · intro hge
    rcases fmtDurationFrom_spec units d hd units_pos units_desc with ⟨hall, _⟩ | h
    · exact absurd hge (not_le.mpr (hall _ second_mem_units))
    · exact h

/-- C1 at `d = 90 minutes`: the hour is the largest fitting unit. -/
theorem fmtDuration_largest_unit_witness :
    (0 : Duration) ≤ 90 * minute ∧ fmtDuration (90 * minute) = "1h" ∧
    ∃ u ∈ units, u.duration ≤ 90 * minute ∧
      (∀ v ∈ units, v.duration ≤ 90 * minute → v.duration ≤ u.duration) ∧
      fmtDuration (90 * minute) = sprintD (Int.tdiv (90 * minute) u.duration) ++ u.label :=
  ⟨by decide, by decide,
    (fmtDuration_largest_unit (90 * minute) (by decide)).2.1 (by decide)⟩

/-! ### The loop of `strings.FieldsFunc` -/

theorem drop_eq_cons {α : Type} (s : List α) (n : Nat) (r : α) (rest : List α)
    (h : s.drop n = r :: rest) : s[n]? = some r ∧ s.drop (n + 1) = rest := by
  constructor
  · have := congrArg List.head? h
    simpa [List.head?_drop] using this
  · have := congrArg List.tail h
    simpa [List.tail_drop] using this

theorem openField_neg (start : Int) (h : ¬ start ≥ 0) : openField start = none := by
  simp [openField, h]

theorem openField_nonneg (start : Int) (h : start ≥ 0) : openField start = some start.toNat := by
  simp [openField, h]

theorem closedField_mono (P : Nat → Prop) (n m : Nat) (sp : span) (hnm : n ≤ m)
    (h : closedField P n sp) : closedField P m sp :=
  ⟨h.1, lt_of_lt_of_le h.2.1 hnm, h.2.2.1, h.2.2.2.1, h.2.2.2.2⟩

/-- A separator while a field is open: the field is closed and recorded. -/
theorem scanInv_sep_open (P : Nat → Prop) (n a : Nat) (spans : List span)
    (hP : P n) (h : scanInv P n (some a) spans) :
    scanInv P (n + 1) none (spans ++ [⟨a, n⟩]) := by
  obtain ⟨hcl, hpw, han, hno, hleft, hbefore, hcov⟩ := h
  refine ⟨?_, ?_, ?_, Or.inr (by simpa using hP)⟩
  · intro sp hsp
    rcases List.mem_append.mp hsp with hsp | hsp
    · exact closedField_mono P n (n + 1) sp (Nat.le_succ n) (hcl sp hsp)
    · rw [List.mem_singleton] at hsp
      subst hsp
      exact ⟨han, Nat.lt_succ_self n, hno, hleft, hP⟩
  · rw [List.pairwise_append]
    refine ⟨hpw, List.pairwise_singleton _ _, ?_⟩
    intro x hx y hy
    rw [List.mem_singleton] at hy
    subst hy
    exact hbefore x hx
  · intro i hi hnP
    have hin : i < n := by
      rcases Nat.lt_succ_iff_lt_or_eq.mp hi with h | h
      · exact h
      · exact absurd (h ▸ hP) hnP
    by_cases hia : i < a
    · obtain ⟨sp, hsp, h1, h2⟩ := hcov i hia hnP
      exact ⟨sp, List.mem_append_left _ hsp, h1, h2⟩
    · exact ⟨⟨a, n⟩, List.mem_append_right _ (List.mem_singleton.mpr rfl), not_lt.mp hia, hin⟩

/-- A separator while no field is open: nothing changes. -/
theorem scanInv_sep_closed (P : Nat → Prop) (n : Nat) (spans : List span)
    (hP : P n) (h : scanInv P n none spans) : scanInv P (n + 1) none spans := by
  obtain ⟨hcl, hpw, hcov, _⟩ := h
  refine ⟨fun sp hsp => closedField_mono P n (n + 1) sp (Nat.le_succ n) (hcl sp hsp), hpw, ?_,
    Or.inr (by simpa using hP)⟩
  intro i hi hnP
  rcases Nat.lt_succ_iff_lt_or_eq.mp hi with h | h
  · exact hcov i h hnP
  · exact absurd (h ▸ hP) hnP

/-- A character of a field while no field is open: a field opens here. -/
theorem scanInv_char_closed (P : Nat → Prop) (n : Nat) (spans : List span)
    (hP : ¬ P n) (h : scanInv P n none spans) : scanInv P (n + 1) (some n) spans := by
  obtain ⟨hcl, hpw, hcov, hprev⟩ := h
  refine ⟨fun sp hsp => closedField_mono P n (n + 1) sp (Nat.le_succ n) (hcl sp hsp), hpw,
    Nat.lt_succ_self n, ?_, hprev, fun sp hsp => (hcl sp hsp).2.1, hcov⟩
  intro i h1 h2
  have : i = n := by omega
  exact this ▸ hP

/-- A character of a field while a field is open: the field goes on. -/
theorem scanInv_char_open (P : Nat → Prop) (n a : Nat) (spans : List span)
    (hP : ¬ P n) (h : scanInv P n (some a) spans) : scanInv P (n + 1) (some a) spans := by
  obtain ⟨hcl, hpw, han, hno, hleft, hbefore, hcov⟩ := h
  refine ⟨fun sp hsp => closedField_mono P n (n + 1) sp (Nat.le_succ n) (hcl sp hsp), hpw,
    Nat.lt_succ_of_lt han, ?_, hleft, hbefore, hcov⟩
  intro i h1 h2
  rcases Nat.lt_succ_iff_lt_or_eq.mp h2 with h | h
  · exact hno i h1 h
  · exact h ▸ hP

/-- The loop keeps the invariant up to the end of the input, for a closure
whose answers are the separator positions `P` as long as its state satisfies
`J`. -/
theorem fieldsFuncScan_inv {σ : Type} (f : σ → Char → Bool × σ) (P : Nat → Prop)
    (J : Nat → σ → Prop) (s : List Char)
    (hstep : ∀ n st r, s[n]? = some r → J n st →
      ((f st r).1 = true ↔ P n) ∧ J (n + 1) (f st r).2) :
    ∀ (rest : List Char) (n : Nat) (st : σ) (start : Int) (spans : List span),
      s.drop n = rest → n ≤ s.length → J n st → scanInv P n (openField start) spans →
      scanInv P s.length (openField (fieldsFuncScan f rest n st start spans).1)
        (fieldsFuncScan f rest n st start spans).2 := by
  intro rest
  induction rest with
  | nil =>
    intro n st start spans hdrop hle _ hinv
    have hlen : s.length ≤ n := List.drop_eq_nil_iff.mp hdrop
    have hn : n = s.length := le_antisymm hle hlen
    subst hn
    simpa [fieldsFuncScan] using hinv
  | cons r rest ih =>
    intro n st start spans hdrop _ hJ hinv
    obtain ⟨hget, hdrop'⟩ := drop_eq_cons s n r rest hdrop
    have hle' : n + 1 ≤ s.length := by
      by_contra hcon
      rw [List.getElem?_eq_none (by omega)] at hget
      exact absurd hget (by simp)
    obtain ⟨hsep, hJ'⟩ := hstep n st r hget hJ
    by_cases hb : (f st r).1 = true
    · have hP : P n := hsep.mp hb
      by_cases hs : start ≥ 0
      · rw [openField_nonneg start hs] at hinv
        have := scanInv_sep_open P n start.toNat spans hP hinv
        rw [← openField_neg (-start - 1) (by omega)] at this
        simpa [fieldsFuncScan, hb, hs] using ih (n + 1) _ _ _ hdrop' hle' hJ' this
      · rw [openField_neg start hs] at hinv
        have := scanInv_sep_closed P n spans hP hinv
        rw [← openField_neg start hs] at this
        simpa [fieldsFuncScan, hb, hs] using ih (n + 1) _ _ _ hdrop' hle' hJ' this
    · have hP : ¬ P n := fun h => hb (hsep.mpr h)
      by_cases hs : start < 0
      · rw [openField_neg start (by omega)] at hinv
        have := scanInv_char_closed P n spans hP hinv
        have ho : openField (n : Int) = some n := by
          rw [openField_nonneg _ (by omega)]; simp
        rw [← ho] at this
        simpa [fieldsFuncScan, hb, hs] using ih (n + 1) _ _ _ hdrop' hle' hJ' this
      · have hs' : start ≥ 0 := by omega
        rw [openField_nonneg start hs'] at hinv
        have := scanInv_char_open P n start.toNat spans hP hinv
        rw [← openField_nonneg start hs'] at this
        simpa [fieldsFuncScan, hb, hs] using ih (n + 1) _ _ _ hdrop' hle' hJ' this

/-- The spans of `strings.FieldsFunc`, for a closure whose answers are the
separator positions `P`. -/
theorem fieldsFuncSpans_spec {σ : Type} (f : σ → Char → Bool × σ) (P : Nat → Prop)
    (J : Nat → σ → Prop) (s : List Char) (st : σ) (h0 : J 0 st)
    (hstep : ∀ n st r, s[n]? = some r → J n st →
      ((f st r).1 = true ↔ P n) ∧ J (n + 1) (f st r).2) :
    fieldSpans P s.length (fieldsFuncSpans f st s) := by
  have hinit : scanInv P 0 (openField (-1)) [] := by
    rw [openField_neg (-1) (by omega)]
    exact ⟨by simp, List.Pairwise.nil, fun i hi _ => absurd hi (Nat.not_lt_zero i), Or.inl rfl⟩
  have hfin := fieldsFuncScan_inv f P J s hstep s 0 st (-1) [] rfl (Nat.zero_le _) h0 hinit
  unfold fieldsFuncSpans
  simp only []
  by_cases hs : (fieldsFuncScan f s 0 st (-1) []).1 ≥ 0
  · rw [if_pos hs]
    rw [openField_nonneg _ hs] at hfin
    obtain ⟨hcl, hpw, han, hno, hleft, hbefore, hcov⟩ := hfin
    refine ⟨?_, ?_, ?_⟩
    · intro sp hsp
      rcases List.mem_append.mp hsp with hsp | hsp
      · obtain ⟨h1, h2, h3, h4, h5⟩ := hcl sp hsp
        exact ⟨h1, le_of_lt h2, h3, h4, Or.inr h5⟩
      · rw [List.mem_singleton] at hsp
        subst hsp
        exact ⟨han, le_refl _, hno, hleft, Or.inl rfl⟩
    · rw [List.pairwise_append]
      refine ⟨hpw, List.pairwise_singleton _ _, ?_⟩
      intro x hx y hy
      rw [List.mem_singleton] at hy
      subst hy
      exact hbefore x hx
    · intro i hi hnP
      by_cases hia : i < (fieldsFuncScan f s 0 st (-1) []).1.toNat
      · obtain ⟨sp, hsp, h1, h2⟩ := hcov i hia hnP
        exact ⟨sp, List.mem_append_left _ hsp, h1, h2⟩
      · exact ⟨_, List.mem_append_right _ (List.mem_singleton.mpr rfl), not_lt.mp hia, hi⟩
  · rw [if_neg hs]
    rw [openField_neg _ hs] at hfin
    obtain ⟨hcl, hpw, hcov, _⟩ := hfin
    refine ⟨?_, hpw, hcov⟩
    intro sp hsp
    obtain ⟨h1, h2, h3, h4, h5⟩ := hcl sp hsp
    exact ⟨h1, le_of_lt h2, h3, h4, Or.inr h5⟩

/-! ### The closure of `splitFields` -/

theorem quotesBefore_succ (s : List Char) (n : Nat) (r : Char) (h : s[n]? = some r) :
    quotesBefore s (n + 1) = quotesBefore s n + (if r = singleQuote then 1 else 0) := by
  unfold quotesBefore
  rw [List.take_succ, List.count_append, h]
  by_cases hr : r = singleQuote
  · simp [hr]
  · simp [hr, List.count_cons]

theorem space_ne_singleQuote : space ≠ singleQuote := by decide

/-- The closure answers `true` exactly at the split points, and its variable
`inQuotes` is the parity of the quotes read so far. -/
theorem splitFieldsPred_step (s : List Char) (n : Nat) (st : Bool) (r : Char)
    (hget : s[n]? = some r) (hJ : st = decide (quotesBefore s n % 2 = 1)) :
    ((splitFieldsPred st r).1 = true ↔ isSplitPoint s n) ∧
    (splitFieldsPred st r).2 = decide (quotesBefore s (n + 1) % 2 = 1) := by
  have hq := quotesBefore_succ s n r hget
  subst hJ
  unfold splitFieldsPred isSplitPoint
  rw [hget, hq]
  by_cases hr : r = singleQuote
  · have hrs : r ≠ space := fun h => space_ne_singleQuote (h ▸ hr)
    constructor
    · simp [hr, hrs]
      intro h
      exact absurd h.symm space_ne_singleQuote
    · simp only [hr, if_true]
      by_cases hpar : quotesBefore s n % 2 = 1
      · have : ¬ (quotesBefore s n + 1) % 2 = 1 := by omega
        simp [hpar, this]
      · have : (quotesBefore s n + 1) % 2 = 1 := by omega
        simp [hpar, this]
  · constructor
    · by_cases hpar : quotesBefore s n % 2 = 1
      · simp [hr, hpar]
      · have : quotesBefore s n % 2 = 0 := by omega
        simp [hr, hpar, this]
    · simp [hr]

/-- The spans behind `splitFields`. -/
theorem splitFields_fieldSpans (s : List Char) :
    fieldSpans (isSplitPoint s) s.length (fieldsFuncSpans splitFieldsPred false s) := by
  apply fieldsFuncSpans_spec splitFieldsPred (isSplitPoint s)
    (fun n st => st = decide (quotesBefore s n % 2 = 1)) s false
  · simp [quotesBefore]
  · intro n st r hget hJ
    exact splitFieldsPred_step s n st r hget hJ

theorem quotesBefore_succ_le (s : List Char) (n : Nat)
    (h : s[n]? ≠ some singleQuote) : quotesBefore s (n + 1) = quotesBefore s n := by
  cases hget : s[n]? with
  | none =>
    unfold quotesBefore
    rw [List.take_succ, hget]
    simp
  | some r =>
    rw [quotesBefore_succ s n r hget]
    have : r ≠ singleQuote := fun hr => h (by rw [hget, hr])
    simp [this]

/-- With no quote strictly after position `i`, the count of quotes stays what it
is right after `i`. -/
theorem quotesBefore_after_last (s : List Char) (i : Nat)
    (hlast : ∀ j, i < j → s[j]? ≠ some singleQuote) :
    ∀ k, quotesBefore s (i + 1 + k) = quotesBefore s (i + 1) := by
  intro k
  induction k with
  | zero => rfl
  | succ k ih =>
    have := quotesBefore_succ_le s (i + 1 + k) (hlast _ (by omega))
    rw [← ih, ← this]
    rfl

/-- Two maximal runs that share a position are the same run. -/
theorem isMaximalRun_unique (s : List Char) (a b : span) (i : Nat)
    (ha : isMaximalRun s a) (hb : isMaximalRun s b)
    (hia : a.start ≤ i ∧ i < a.stop) (hib : b.start ≤ i ∧ i < b.stop) : a = b := by
  obtain ⟨_, ha2, ha3, ha4, ha5⟩ := ha
  obtain ⟨_, hb2, hb3, hb4, hb5⟩ := hb
  have hstart : a.start = b.start := by
    rcases Nat.lt_trichotomy a.start b.start with h | h | h
    · rcases hb4 with h0 | hsp
      · omega
      · exact absurd hsp (ha3 _ (by omega) (by omega))
    · exact h
    · rcases ha4 with h0 | hsp
      · omega
      · exact absurd hsp (hb3 _ (by omega) (by omega))
  have hstop : a.stop = b.stop := by
    rcases Nat.lt_trichotomy a.stop b.stop with h | h | h
    · rcases ha5 with h0 | hsp
      · omega
      · exact absurd hsp (hb3 _ (by omega) h)
    · exact h
    · rcases hb5 with h0 | hsp
      · omega
      · exact absurd hsp (ha3 _ (by omega) h)
  cases a; cases b
  simp only [span.mk.injEq]
  exact ⟨hstart, hstop⟩

/-- C2: `splitFields s` is, in order, the list of the maximal non-empty runs of
`s` between split points (spaces preceded by an even number of single quotes):
its tokens are the substrings of an increasing list of spans that holds exactly
the maximal runs.  A quote is never a split point and lies in a token, no
position preceded by an odd number of quotes is a split point, and the token of
an unmatched last quote reaches the end of the line.  The function is total. -/
theorem splitFields_maximal_runs (s : String) :
    ∃ spans : List span,
      splitFields s = spans.map (fun sp => String.mk (slice s.data sp)) ∧
      (∀ sp, sp ∈ spans ↔ isMaximalRun s.data sp) ∧
      spans.Pairwise (fun a b => a.stop < b.start) ∧
      (∀ i, s.data[i]? = some singleQuote →
        ¬ isSplitPoint s.data i ∧ ∃ sp ∈ spans, sp.start ≤ i ∧ i < sp.stop) ∧
      (∀ i, quotesBefore s.data i % 2 = 1 → ¬ isSplitPoint s.data i) ∧
      (∀ i, s.data[i]? = some singleQuote → quotesBefore s.data (i + 1) % 2 = 1 →
        (∀ j, i < j → s.data[j]? ≠ some singleQuote) →
        ∃ sp ∈ spans, sp.start ≤ i ∧ sp.stop = s.data.length) := by
  obtain ⟨hruns, hpw, hcov⟩ := splitFields_fieldSpans s.data
  have hquote : ∀ i, s.data[i]? = some singleQuote → ¬ isSplitPoint s.data i := by
    intro i hi hsp
    rw [hsp.1] at hi
    exact space_ne_singleQuote (Option.some.inj hi)
  have hlen : ∀ i, s.data[i]? = some singleQuote → i < s.data.length := by
    intro i hi
    by_contra hcon
    rw [List.getElem?_eq_none (by omega)] at hi
    exact absurd hi (by simp)
  refine ⟨fieldsFuncSpans splitFieldsPred false s.data, ?_, ?_, hpw, ?_, ?_, ?_⟩
  · simp [splitFields, fieldsFunc, List.map_map, Function.comp_def]
  · intro sp
    constructor
    · exact fun hsp => hruns sp hsp
    · intro hmax
      have hns : ¬ isSplitPoint s.data sp.start := hmax.2.2.1 _ (le_refl _) hmax.1
      obtain ⟨sp', hsp', h1, h2⟩ := hcov sp.start (lt_of_lt_of_le hmax.1 hmax.2.1) hns
      have := isMaximalRun_unique s.data sp' sp sp.start (hruns sp' hsp') hmax ⟨h1, h2⟩
        ⟨le_refl _, hmax.1⟩
      exact this ▸ hsp'
  · intro i hi
    exact ⟨hquote i hi, hcov i (hlen i hi) (hquote i hi)⟩
  · intro i hodd hsp
    have := hsp.2
    omega
  · intro i hi hodd hlast
    obtain ⟨sp, hsp, h1, h2⟩ := hcov i (hlen i hi) (hquote i hi)
    refine ⟨sp, hsp, h1, ?_⟩
    rcases (hruns sp hsp).2.2.2.2 with h | h
    · exact h
    · exfalso
      have hk := quotesBefore_after_last s.data i hlast (sp.stop - (i + 1))
      have he : i + 1 + (sp.stop - (i + 1)) = sp.stop := by omega
      rw [he] at hk
      have := h.2
      omega

/-- C3 (as stated): the tokenizer does not split inside the quoted region, so
the four tokens of the claim are not what it returns. -/
theorem splitFields_example_not_four_tokens :
    splitFields "add 'buy milk' +home" ≠ ["add", "'buy", "milk'", "+home"] := by decide

/-- C3 (amended): `splitFields "add 'buy milk' +home"` is exactly the three
tokens `add`, `'buy milk'`, `+home`. -/
theorem splitFields_example_three_tokens :
    splitFields "add 'buy milk' +home" = ["add", "'buy milk'", "+home"] := by decide

/-! ### The confirmation line -/

theorem matchLiteral_append (p rest : List Char) : matchLiteral p (p ++ rest) = some rest := by
  induction p with
  | nil => cases rest <;> rfl
  | cons c p ih => simp [matchLiteral, ih]

/-- A non-empty run of digits followed by a character that is no digit and no
newline: the greedy group takes the whole run. -/
theorem matchDigitsThenAny_run (ds : List Char) (x : Char) (rest : List Char)
    (hne : ds ≠ []) (hds : ∀ c ∈ ds, isDigit c = true)
    (hx : isDigit x = false) (hany : isAnyButNewline x = true) :
    matchDigitsThenAny (ds ++ x :: rest) = some ds := by
  induction ds with
  | nil => exact absurd rfl hne
  | cons c ds ih =>
    have hc : isDigit c = true := hds c (List.mem_cons_self _ _)
    cases ds with
    | nil =>
      simp [matchDigitsThenAny, hc, hx, hany]
    | cons d ds =>
      have hrec := ih (by simp) (fun c hc => hds c (List.mem_cons_of_mem _ hc))
      simp only [List.cons_append] at hrec ⊢
      rw [matchDigitsThenAny, hrec]
      simp [hc]

theorem findStringSubmatch_of_matchHere (s cap : List Char) (h : matchHere s = some cap) :
    findStringSubmatch s = some cap := by
  cases s with
  | nil => simpa [findStringSubmatch] using h
  | cons c s => simp [findStringSubmatch, h]

/-- The pattern on a confirmation line: the group is the whole digit run. -/
theorem getTaskID_confirmation (ds : List Char) (hne : ds ≠ [])
    (hds : ∀ c ∈ ds, isDigit c = true) :
    getTaskID (String.mk ("Created task ".data ++ ds ++ ".".data)) = String.mk ds := by
  have h1 : matchHere ("Created task ".data ++ ds ++ ".".data) = some ds := by
    unfold matchHere
    rw [List.append_assoc, matchLiteral_append]
    exact matchDigitsThenAny_run ds (Char.ofNat 46) [] hne hds (by decide) (by decide)
  unfold getTaskID
  simp only [findStringSubmatch_of_matchHere _ _ h1]

/-! ### The table -/

theorem getD_pad_set {α : Type} (l : List α) (n m : Nat) (x d : α) :
    ((l ++ List.replicate (n + 1 - l.length) d).set n x).getD m d =
      if m = n then x else l.getD m d := by
  simp only [List.getD_eq_getElem?_getD, List.getElem?_set]
  by_cases h : m = n
  · subst h
    have : m < l.length + (m + 1 - l.length) := by omega
    simp [this]
  · have h' : ¬ n = m := fun e => h e.symm
    simp only [h, h', if_false]
    by_cases hlt : m < l.length
    · rw [List.getElem?_append_left hlt]
    · rw [List.getElem?_append_right (by omega)]
      rw [List.getElem?_eq_none (show l.length ≤ m by omega)]
      by_cases h2 : m - l.length < n + 1 - l.length
      · rw [List.getElem?_replicate_of_lt h2]; rfl
      · rw [List.getElem?_eq_none (by rw [List.length_replicate]; omega)]

theorem getD_pad {α : Type} (l : List α) (k m : Nat) (d : α) :
    (l ++ List.replicate k d).getD m d = l.getD m d := by
  simp only [List.getD_eq_getElem?_getD]
  by_cases hlt : m < l.length
  · rw [List.getElem?_append_left hlt]
  · rw [List.getElem?_append_right (by omega)]
    rw [List.getElem?_eq_none (show l.length ≤ m by omega)]
    by_cases h2 : m - l.length < k
    · rw [List.getElem?_replicate_of_lt h2]; rfl
    · rw [List.getElem?_eq_none (by rw [List.length_replicate]; omega)]

theorem GetCell_SetCell (t : Table) (row col row' col' : Nat) (c : TableCell) :
    GetCell (SetCell t row col c) row' col' =
      if row' = row ∧ col' = col then c else GetCell t row' col' := by
  unfold GetCell SetCell
  simp only []
  rw [getD_pad_set]
  by_cases hr : row' = row
  · subst hr
    simp only [if_true, true_and]
    rw [getD_pad_set, getD_pad]
  · simp [hr]

theorem SetCell_length (t : Table) (row col : Nat) (c : TableCell) :
    (SetCell t row col c).length = max t.length (row + 1) := by
  unfold SetCell
  simp
  omega

theorem SetCell_append_shift (l r : Table) (k col : Nat) (c : TableCell) :
    SetCell (l ++ r) (l.length + k) col c = l ++ SetCell r k col c := by
  unfold SetCell
  simp only [List.length_append]
  have e1 : l.length + k + 1 - (l.length + r.length) = k + 1 - r.length := by omega
  rw [e1, List.append_assoc]
  have e2 : (l ++ (r ++ List.replicate (k + 1 - r.length) [])).getD (l.length + k) [] =
      (r ++ List.replicate (k + 1 - r.length) []).getD k [] := by
    simp only [List.getD_eq_getElem?_getD]
    rw [List.getElem?_append_right (by omega)]
    simp
  rw [e2, List.set_append_right _ _ (by omega)]
  simp

theorem setCell_append_shift (l r : Table) (k col : Nat) (priority text : String) :
    setCell (l ++ r) (l.length + k) col priority text = l ++ setCell r k col priority text := by
  unfold setCell
  split <;> exact SetCell_append_shift _ _ _ _ _

theorem setCell_length (t : Table) (row col : Nat) (priority text : String) :
    (setCell t row col priority text).length = max t.length (row + 1) := by
  unfold setCell
  split <;> exact SetCell_length _ _ _ _

theorem GetCell_setCell_text (t : Table) (row col row' col' : Nat) (priority text : String) :
    (GetCell (setCell t row col priority text) row' col').Text =
      if row' = row ∧ col' = col then text else (GetCell t row' col').Text := by
  unfold setCell
  split <;> rw [GetCell_SetCell] <;> split <;> rfl

theorem InsertRow_rowCount (t : Table) : InsertRow t (GetRowCount t) = t := by
  simp [InsertRow, GetRowCount]

/-- The row of `insertRow` does not depend on the rows before it. -/
theorem insertRow_append (env : Env) (nowAge nowDue : Time) (table : Table) (task : Task) :
    insertRow env nowAge nowDue table task = table ++ insertRow env nowAge nowDue [] task := by
  have s0 : ∀ (r : Table) col p x, setCell (table ++ r) table.length col p x =
      table ++ setCell r 0 col p x := fun r col p x => setCell_append_shift table r 0 col p x
  have S0 : ∀ (r : Table) col c, SetCell (table ++ r) table.length col c =
      table ++ SetCell r 0 col c := fun r col c => SetCell_append_shift table r 0 col c
  unfold insertRow
  simp only [InsertRow_rowCount]
  simp only [GetRowCount, List.length_nil]
  have e0 : setCell table table.length 0 task.Priority (Itoa task.ID) =
      table ++ setCell [] 0 0 task.Priority (Itoa task.ID) := by
    simpa using s0 [] 0 task.Priority (Itoa task.ID)
  rw [e0]
  cases timeParse env task.Entry <;> cases timeParse env task.Due <;>
    by_cases hd : task.Due = "" <;> simp only [hd, if_true, if_false, s0, S0] <;>
    (try split) <;> simp only [s0, S0]

theorem insertRow_nil_length (env : Env) (nowAge nowDue : Time) (task : Task) :
    (insertRow env nowAge nowDue [] task).length = 1 := by
  unfold insertRow
  simp only [InsertRow_rowCount]
  simp only [GetRowCount, List.length_nil]
  cases timeParse env task.Entry <;> cases timeParse env task.Due <;>
    by_cases hd : task.Due = "" <;> simp only [hd, if_true, if_false] <;>
    (try split) <;> simp [setCell_length, SetCell_length]

/-- The function `insertRow` appends one row, the row of the task, and leaves
the rows of the table as they are. -/
theorem insertRow_eq_append (env : Env) (nowAge nowDue : Time) (table : Table) (task : Task) :
    insertRow env nowAge nowDue table task = table ++ [renderRow env nowAge nowDue task] := by
  rw [insertRow_append]
  congr 1
  unfold renderRow
  have h := insertRow_nil_length env nowAge nowDue task
  match hm : insertRow env nowAge nowDue [] task, h with
  | [r], _ => rfl

/-- The text of the ID column of the row of a task. -/
theorem renderRow_id (env : Env) (nowAge nowDue : Time) (task : Task) :
    ((renderRow env nowAge nowDue task).getD 0 emptyCell).Text = Itoa task.ID := by
  have : ((renderRow env nowAge nowDue task).getD 0 emptyCell) =
      GetCell (insertRow env nowAge nowDue [] task) 0 0 := rfl
  rw [this]
  unfold insertRow
  simp only [InsertRow_rowCount]
  simp only [GetRowCount, List.length_nil]
  cases timeParse env task.Entry <;> cases timeParse env task.Due <;>
    by_cases hd : task.Due = "" <;> simp only [hd, if_true, if_false] <;>
    (try split) <;> simp [GetCell_setCell_text, GetCell_SetCell]

/-- The text of the Due column of the row of a task whose due date parses. -/
theorem renderRow_due (env : Env) (nowAge nowDue : Time) (task : Task) (due : Time)
    (hdue : timeParse env task.Due = some due) :
    dueColumn (renderRow env nowAge nowDue task) =
      if timeAfter due nowDue then fmtDuration (timeSub due nowDue)
      else "-" ++ fmtDuration (timeSub nowDue due) := by
  have : dueColumn (renderRow env nowAge nowDue task) =
      (GetCell (insertRow env nowAge nowDue [] task) 0 4).Text := rfl
  rw [this]
  have hd : task.Due ≠ "" := by
    intro h
    simp [timeParse, h] at hdue
  unfold insertRow
  simp only [InsertRow_rowCount]
  simp only [GetRowCount, List.length_nil, hdue, hd, if_false]
  cases timeParse env task.Entry <;> split <;>
    simp [GetCell_setCell_text, GetCell_SetCell]

/-! ### The Due column -/

theorem digitChar_ne_dash (k : Nat) (h : k < 10) : Nat.digitChar k ≠ dash := by
  interval_cases k <;> decide

theorem toDigitsCore_no_dash (fuel : Nat) : ∀ (n : Nat) (ds : List Char),
    (∀ c ∈ ds, c ≠ dash) → ∀ c ∈ Nat.toDigitsCore 10 fuel n ds, c ≠ dash := by
  induction fuel with
  | zero => intro n ds hds c hc; exact hds c (by simpa [Nat.toDigitsCore] using hc)
  | succ fuel ih =>
    intro n ds hds c hc
    have hd : ∀ c ∈ Nat.digitChar (n % 10) :: ds, c ≠ dash := by
      intro c hc
      rcases List.mem_cons.mp hc with rfl | hc
      · exact digitChar_ne_dash _ (Nat.mod_lt _ (by omega))
      · exact hds c hc
    unfold Nat.toDigitsCore at hc
    simp only [] at hc
    split at hc
    · exact hd c hc
    · exact ih _ _ hd c hc

theorem sprintD_no_dash (q : Int) (hq : 0 ≤ q) : ∀ c ∈ (sprintD q).data, c ≠ dash := by
  obtain ⟨n, rfl⟩ := Int.eq_ofNat_of_zero_le hq
  intro c hc
  have : (sprintD (n : Int)).data = Nat.toDigitsCore 10 (n + 1) n [] := rfl
  rw [this] at hc
  exact toDigitsCore_no_dash _ _ _ (by simp) c hc

theorem units_label_no_dash : ∀ u ∈ units, ∀ c ∈ u.label.data, c ≠ dash := by decide

theorem fmtDurationFrom_no_dash (us : List unit) (hus : ∀ u ∈ us, ∀ c ∈ u.label.data, c ≠ dash)
    (d : Duration) : ∀ c ∈ (fmtDurationFrom us d).data, c ≠ dash := by
  induction us with
  | nil => intro c hc; simp [fmtDurationFrom] at hc
  | cons u us ih =>
    intro c hc
    by_cases hq : Int.tdiv d u.duration > 0
    · rw [fmtDurationFrom_hit u us d hq, String.data_append] at hc
      rcases List.mem_append.mp hc with h | h
      · exact sprintD_no_dash _ (le_of_lt hq) c h
      · exact hus u (List.mem_cons_self _ _) c h
    · rw [fmtDurationFrom_skip u us d hq] at hc
      exact ih (fun v hv => hus v (List.mem_cons_of_mem _ hv)) c hc

/-- No output of `fmtDuration` holds the character `-`. -/
theorem fmtDuration_no_dash (d : Duration) : ∀ c ∈ (fmtDuration d).data, c ≠ dash :=
  fmtDurationFrom_no_dash units units_label_no_dash d

/-! ### The sorted load -/

theorem sinkInto_perm {α : Type} (lt : α → α → Bool) (x : α) (l : List α) :
    (sinkInto lt x l).Perm (x :: l) := by
  induction l with
  | nil => exact List.Perm.refl _
  | cons y ys ih =>
    unfold sinkInto
    split
    · exact (List.Perm.cons y ih).trans (List.Perm.swap x y ys)
    · exact List.Perm.refl _

theorem foldl_sinkInto_perm {α : Type} (lt : α → α → Bool) (l : List α) :
    ∀ acc : List α, (l.foldl (fun sorted x => sinkInto lt x sorted) acc).Perm (l.reverse ++ acc) := by
  induction l with
  | nil => intro acc; exact List.Perm.refl _
  | cons x xs ih =>
    intro acc
    simp only [List.foldl_cons, List.reverse_cons, List.append_assoc, List.singleton_append]
    exact (ih _).trans (List.Perm.append_left _ (sinkInto_perm lt x acc))

theorem SliceStable_perm {α : Type} (lt : α → α → Bool) (l : List α) :
    (SliceStable lt l).Perm l := by
  unfold SliceStable
  refine (List.reverse_perm _).trans ?_
  have := foldl_sinkInto_perm lt l []
  simp only [List.append_nil] at this
  exact this.trans (List.reverse_perm _)

/-- The sorted part, last element first, is ascending in urgency; sinking a
task into it keeps it so. -/
theorem sinkInto_sorted (x : Task) (l : List Task)
    (h : l.Pairwise (fun a b => a.Urgency ≤ b.Urgency)) :
    (sinkInto less x l).Pairwise (fun a b => a.Urgency ≤ b.Urgency) := by
  induction l with
  | nil => simp [sinkInto]
  | cons y ys ih =>
    rw [List.pairwise_cons] at h
    unfold sinkInto
    by_cases hlt : less x y = true
    · simp only [hlt, if_true]
      rw [List.pairwise_cons]
      refine ⟨?_, ih h.2⟩
      intro z hz
      rcases List.mem_cons.mp ((sinkInto_perm less x ys).subset hz) with rfl | hz'
      · have : z.Urgency > y.Urgency := by simpa [less] using hlt
        exact le_of_lt this
      · exact h.1 z hz'
    · simp only [hlt, Bool.false_eq_true, if_false]
      have hxy : x.Urgency ≤ y.Urgency := by
        simpa [less] using hlt
      rw [List.pairwise_cons]
      refine ⟨?_, List.pairwise_cons.mpr h⟩
      intro z hz
      rcases List.mem_cons.mp hz with rfl | hz'
      · exact hxy
      · exact le_trans hxy (h.1 z hz')

theorem foldl_sinkInto_sorted (l : List Task) : ∀ acc : List Task,
    acc.Pairwise (fun a b => a.Urgency ≤ b.Urgency) →
    (l.foldl (fun sorted x => sinkInto less x sorted) acc).Pairwise
      (fun a b => a.Urgency ≤ b.Urgency) := by
  induction l with
  | nil => intro acc h; exact h
  | cons x xs ih => intro acc h; exact ih _ (sinkInto_sorted x acc h)

theorem sortTasks_sorted (tasks : List Task) :
    (sortTasks tasks).Pairwise (fun a b => a.Urgency ≥ b.Urgency) := by
  unfold sortTasks SliceStable
  rw [List.pairwise_reverse]
  exact foldl_sinkInto_sorted tasks [] List.Pairwise.nil

/-- Sinking a task moves it only past tasks of another urgency: the tasks of
one urgency keep their order. -/
theorem sinkInto_filter (x : Task) (u : Rat) (l : List Task) :
    (sinkInto less x l).filter (fun t => decide (t.Urgency = u)) =
      (x :: l).filter (fun t => decide (t.Urgency = u)) := by
  induction l with
  | nil => rfl
  | cons y ys ih =>
    unfold sinkInto
    by_cases hlt : less x y = true
    · have hne : x.Urgency ≠ y.Urgency := by
        have : x.Urgency > y.Urgency := by simpa [less] using hlt
        exact ne_of_gt this
      simp only [hlt, if_true]
      rw [List.filter_cons, ih]
      by_cases hx : x.Urgency = u
      · have hy : ¬ y.Urgency = u := fun h => hne (hx.trans h.symm)
        simp [List.filter_cons, hx, hy]
      · by_cases hy : y.Urgency = u <;> simp [List.filter_cons, hx, hy]
    · simp [hlt]

theorem foldl_sinkInto_filter (u : Rat) (l : List Task) : ∀ acc : List Task,
    (l.foldl (fun sorted x => sinkInto less x sorted) acc).filter (fun t => decide (t.Urgency = u)) =
      (l.reverse ++ acc).filter (fun t => decide (t.Urgency = u)) := by
  induction l with
  | nil => intro acc; rfl
  | cons x xs ih =>
    intro acc
    simp only [List.foldl_cons, List.reverse_cons, List.append_assoc, List.singleton_append]
    rw [ih, List.filter_append, List.filter_append, sinkInto_filter]

theorem sortTasks_stable (tasks : List Task) (u : Rat) :
    (sortTasks tasks).filter (fun t => decide (t.Urgency = u)) =
      tasks.filter (fun t => decide (t.Urgency = u)) := by
  unfold sortTasks SliceStable
  rw [List.filter_reverse, foldl_sinkInto_filter]
  simp [List.filter_reverse]


theorem insertRows_eq_append (env : Env) (clock : Nat → Time × Time) (tasks : List Task) :
    ∀ (k : Nat) (t : Table), insertRows env clock k t tasks = t ++ renderRows env clock k tasks := by
  induction tasks with
  | nil => intro k t; simp [insertRows, renderRows]
  | cons task tasks ih =>
    intro k t
    simp only [insertRows, renderRows]
    rw [ih, insertRow_eq_append]
    simp

theorem renderRows_length (env : Env) (clock : Nat → Time × Time) (tasks : List Task) :
    ∀ k : Nat, (renderRows env clock k tasks).length = tasks.length := by
  induction tasks with
  | nil => intro k; rfl
  | cons task tasks ih => intro k; simp [renderRows, ih]

theorem renderRows_ids (env : Env) (clock : Nat → Time × Time) (tasks : List Task) :
    ∀ k : Nat, (renderRows env clock k tasks).map (fun row => (row.getD 0 emptyCell).Text) =
      tasks.map (fun task => Itoa task.ID) := by
  induction tasks with
  | nil => intro k; rfl
  | cons task tasks ih =>
    intro k
    simp only [renderRows, List.map_cons, ih, renderRow_id]

theorem setFixedRow_rows (texts seps : List String) :
    (setFixedRow (setFixedRow [] 0 texts) 1 seps).length = 2 := by
  simp [setFixedRow, numberOfColumns, List.range, List.range.loop, SetCell_length]

/-- The table of the start-up: two fixed rows, then the rows of the sorted
tasks. -/
theorem loadTable_eq (env : Env) (clock : Nat → Time × Time) (tasks : List Task) :
    loadTable env clock tasks =
      setFixedRow (setFixedRow [] 0 taskHeaders) 1 (taskSeparators (sortTasks tasks)) ++
        renderRows env clock 0 (sortTasks tasks) := by
  unfold loadTable
  simp only []
  rw [insertRows_eq_append]

/-- C4: the rows of the start-up table after the header and the separators are
the rows of the exported tasks in the order `sortTasks`, which is a permutation
of the export order, non-increasing in urgency (a task of greater urgency comes
before one of lesser urgency) and keeps the export order among tasks of equal
urgency; urgencies 5, 5, 3 exported as A, B, C are rendered as A, B, C. -/
theorem loadTable_sorted_stable (env : Env) (clock : Nat → Time × Time) (tasks : List Task) :
    (loadTable env clock tasks).drop 2 = renderRows env clock 0 (sortTasks tasks) ∧
    ((loadTable env clock tasks).drop 2).map (fun row => (row.getD 0 emptyCell).Text) =
      (sortTasks tasks).map (fun task => Itoa task.ID) ∧
    (sortTasks tasks).Perm tasks ∧
    (sortTasks tasks).Pairwise (fun a b => a.Urgency ≥ b.Urgency) ∧
    (∀ u : Rat, (sortTasks tasks).filter (fun t => decide (t.Urgency = u)) =
      tasks.filter (fun t => decide (t.Urgency = u))) ∧
    (∀ A B C : Task, A.Urgency = 5 → B.Urgency = 5 → C.Urgency = 3 →
      sortTasks [A, B, C] = [A, B, C]) := by
  have hdrop : (loadTable env clock tasks).drop 2 = renderRows env clock 0 (sortTasks tasks) := by
    rw [loadTable_eq]
    have h2 := setFixedRow_rows taskHeaders (taskSeparators (sortTasks tasks))
    rw [List.drop_append_of_le_length (by omega), List.drop_of_length_le (by omega)]
    simp
  refine ⟨hdrop, ?_, SliceStable_perm less tasks, sortTasks_sorted tasks,
    sortTasks_stable tasks, ?_⟩
  · rw [hdrop, renderRows_ids]
  · intro A B C hA hB hC
    simp [sortTasks, SliceStable, sinkInto, less, hA, hB, hC]
    norm_num

theorem GetCell_append_last (t : Table) (row : List TableCell) (col : Nat) :
    GetCell (t ++ [row]) (GetRowCount t) col = row.getD col emptyCell := by
  unfold GetCell GetRowCount
  simp [List.getD_eq_getElem?_getD]

theorem timeSub_of_nonneg (t u : Time) (h : 0 ≤ t - u) :
    timeSub t u = min (t - u) maxDuration := by
  unfold timeSub
  have hmin : minDuration < 0 := by decide
  by_cases hhi : t - u > maxDuration
  · rw [if_pos hhi, min_eq_right (le_of_lt hhi)]
  · rw [if_neg hhi, if_neg (not_lt.mpr (le_trans (le_of_lt hmin) h)),
      min_eq_left (not_lt.mp hhi)]

/-- C5 (amended): for a task whose due timestamp parses to `due`, the text of
the Due column of the row `insertRow` appends is, when `due` is after `now`,
`fmtDuration` of `due - now` capped at the largest duration (`1<<63 - 1` ns,
about 292 years; Go's `Sub` saturates there), and it does not start with `-`;
otherwise it is `-` followed by `fmtDuration` of `now - due` capped in the same
way.  Whenever the difference fits a duration the column is
`fmtDuration (due - now)`, or `-` followed by `fmtDuration (now - due)`.  A due
date two days before `now` gives `-2d`, one two days after `now` gives `2d`. -/
theorem due_column_signed (env : Env) (nowAge now : Time) (table : Table) (task : Task)
    (due : Time) (hdue : timeParse env task.Due = some due) :
    (now < due →
      (GetCell (insertRow env nowAge now table task) (GetRowCount table) 4).Text =
        fmtDuration (min (due - now) maxDuration) ∧
      (GetCell (insertRow env nowAge now table task) (GetRowCount table) 4).Text.data.head? ≠
        some dash) ∧
    (¬ now < due →
      (GetCell (insertRow env nowAge now table task) (GetRowCount table) 4).Text =
        "-" ++ fmtDuration (min (now - due) maxDuration)) ∧
    (now < due → due - now ≤ maxDuration →
      (GetCell (insertRow env nowAge now table task) (GetRowCount table) 4).Text =
        fmtDuration (due - now)) ∧
    (¬ now < due → now - due ≤ maxDuration →
      (GetCell (insertRow env nowAge now table task) (GetRowCount table) 4).Text =
        "-" ++ fmtDuration (now - due)) ∧
    (due = now - 2 * 24 * hour →
      (GetCell (insertRow env nowAge now table task) (GetRowCount table) 4).Text = "-2d") ∧
    (due = now + 2 * 24 * hour →
      (GetCell (insertRow env nowAge now table task) (GetRowCount table) 4).Text = "2d") := by
  have hcol : (GetCell (insertRow env nowAge now table task) (GetRowCount table) 4).Text =
      if timeAfter due now then fmtDuration (timeSub due now)
      else "-" ++ fmtDuration (timeSub now due) := by
    rw [insertRow_eq_append, GetCell_append_last]
    exact renderRow_due env nowAge now task due hdue
  have hfut : now < due →
      (GetCell (insertRow env nowAge now table task) (GetRowCount table) 4).Text =
        fmtDuration (min (due - now) maxDuration) := by
    intro hlt
    have ha : timeAfter due now = true := by simpa [timeAfter] using hlt
    rw [hcol, if_pos ha, timeSub_of_nonneg due now (by linarith)]
  have hpast : ¬ now < due →
      (GetCell (insertRow env nowAge now table task) (GetRowCount table) 4).Text =
        "-" ++ fmtDuration (min (now - due) maxDuration) := by
    intro hnlt
    have ha : ¬ timeAfter due now = true := by simpa [timeAfter] using hnlt
    rw [hcol, if_neg ha, timeSub_of_nonneg now due (by linarith)]
  have h48 : (0 : Int) < 2 * 24 * hour := by decide
  have h48max : (2 * 24 * hour : Int) ≤ maxDuration := by decide
  refine ⟨?_, hpast, ?_, ?_, ?_, ?_⟩
  · intro hlt
    refine ⟨hfut hlt, ?_⟩
    rw [hfut hlt]
    intro hhead
    cases hdata : (fmtDuration (min (due - now) maxDuration)).data with
    | nil => rw [hdata] at hhead; simp at hhead
    | cons c cs =>
      rw [hdata] at hhead
      have hc : c = dash := by simpa using hhead
      exact fmtDuration_no_dash (min (due - now) maxDuration) c (by rw [hdata]; simp) hc
  · intro hlt hfit
    rw [hfut hlt, min_eq_left hfit]
  · intro hnlt hfit
    rw [hpast hnlt, min_eq_left hfit]
  · intro hd
    have hn : ¬ now < due := by rw [hd]; linarith
    have hdiff : now - due = 2 * 24 * hour := by rw [hd]; ring
    rw [hpast hn, hdiff, min_eq_left h48max]
    decide
  · intro hd
    have hn : now < due := by rw [hd]; linarith
    have hdiff : due - now = 2 * 24 * hour := by rw [hd]; ring
    rw [hfut hn, hdiff, min_eq_left h48max]
    decide

/-- C5 on the sample task, due 2026-11-06, with the clock at 2026-11-04. -/
theorem due_column_signed_witness :
    timeParse sampleEnv sampleTask.Due = some (nov2 + 4 * 24 * hour) ∧
    (GetCell (insertRow sampleEnv (nov2 + 2 * 24 * hour) (nov2 + 2 * 24 * hour) [] sampleTask)
      (GetRowCount []) 4).Text = "2d" :=
  ⟨by decide,
    (due_column_signed sampleEnv (nov2 + 2 * 24 * hour) (nov2 + 2 * 24 * hour) [] sampleTask
      (nov2 + 4 * 24 * hour) (by decide)).2.2.2.2.2 (by decide)⟩

/-- C5 (as stated): a task due on 9999-12-30, rendered on 2026-11-04.  The due
timestamp parses and is after `now`, the difference `due - now` is 7978 years,
and the Due column reads `292y`, not `fmtDuration (due - now)`, which is
`7978y`. -/
theorem due_column_far_future :
    timeParse sampleEnv farTask.Due = some farDue ∧
    nov2 + 2 * 24 * hour < farDue ∧
    (GetCell (insertRow sampleEnv (nov2 + 2 * 24 * hour) (nov2 + 2 * 24 * hour) [] farTask)
      (GetRowCount []) 4).Text = "292y" ∧
    fmtDuration (farDue - (nov2 + 2 * 24 * hour)) = "7978y" ∧
    (GetCell (insertRow sampleEnv (nov2 + 2 * 24 * hour) (nov2 + 2 * 24 * hour) [] farTask)
      (GetRowCount []) 4).Text ≠ fmtDuration (farDue - (nov2 + 2 * 24 * hour)) := by
  refine ⟨by decide, by decide, by decide, by decide, by decide⟩

/-! ### The handlers -/

theorem runCommand_calls {σ : Type} (E : Engine σ) (u : UI σ) (args : List String) :
    (runCommand E u args).2.calls = u.calls ++ [args] := by
  unfold runCommand
  simp only []
  split <;> rfl

theorem runCommand_taskTable {σ : Type} (E : Engine σ) (u : UI σ) (args : List String) :
    (runCommand E u args).2.taskTable = u.taskTable := by
  unfold runCommand
  simp only []
  split <;> rfl

theorem runCommand_failed {σ : Type} (E : Engine σ) (u : UI σ) (args : List String)
    (h : (E.exec u.engine args).1.failed = true) : (runCommand E u args).1 = "" := by
  unfold runCommand
  simp [h]

theorem splitNewline_ne_nil (s : List Char) : splitNewline s ≠ [] := by
  induction s with
  | nil => simp [splitNewline]
  | cons c s ih =>
    unfold splitNewline
    split
    · simp
    · split <;> simp

theorem outputLines_length (out : String) : (outputLines out).length ≥ 1 := by
  unfold outputLines
  rw [List.length_map]
  have := splitNewline_ne_nil (trimSuffixNewline out.data)
  exact List.length_pos.mpr this

theorem createExport_calls {σ : Type} (E : Engine σ) (u : UI σ) (desc : String) :
    (createExport E u desc).2.calls =
      u.calls ++ ["add" :: splitFields desc,
        [getTaskID ((outputLines (runCommand E u ("add" :: splitFields desc)).1).getD 0 ""),
          "export"]] := by
  unfold createExport
  simp only [runCommand_calls]
  simp

theorem createExport_taskTable {σ : Type} (E : Engine σ) (u : UI σ) (desc : String) :
    (createExport E u desc).2.taskTable = u.taskTable := by
  unfold createExport
  simp only [runCommand_taskTable]

/-- The Create mutation, by the outcome of its export. -/
theorem createTask_eq {σ : Type} (env : Env) (E : Engine σ) (nowAge nowDue : Time) (u : UI σ)
    (desc : String) :
    createTask env E nowAge nowDue u desc =
      match unmarshalTasks env (createExport E u desc).1 with
      | none => Outcome.panicked Panic.unmarshalError (createExport E u desc).2
      | some [] => Outcome.panicked Panic.indexOutOfRange (createExport E u desc).2
      | some (task :: _) =>
        Outcome.running (hideNewTaskPage
          { (createExport E u desc).2 with
            taskTable := insertRow env nowAge nowDue (createExport E u desc).2.taskTable task }) := by
  unfold createTask createExport
  simp only [outputLines_length, if_true]

theorem createTask_calls {σ : Type} (env : Env) (E : Engine σ) (nowAge nowDue : Time) (u : UI σ)
    (desc : String) :
    (createTask env E nowAge nowDue u desc).state.calls = (createExport E u desc).2.calls := by
  rw [createTask_eq]
  split <;> rfl


theorem newCalls_createTask {σ : Type} (env : Env) (E : Engine σ) (nowAge nowDue : Time)
    (u : UI σ) (desc : String) :
    newCalls u (createTask env E nowAge nowDue u desc) =
      ["add" :: splitFields desc,
        [getTaskID ((outputLines (runCommand E u ("add" :: splitFields desc)).1).getD 0 ""),
          "export"]] := by
  unfold newCalls
  rw [createTask_calls, createExport_calls]
  simp

/-- C6: on the confirmation line `Created task <ds>.` of a non-empty digit
string `ds`, `getTaskID` returns `ds`, all of it, and when that line is the
first line of the answer to `add`, the Create mutation runs the engine twice:
the `add`, then the export of the identifier `ds`. -/
theorem getTaskID_digits_to_export {σ : Type} (env : Env) (E : Engine σ) (nowAge nowDue : Time)
    (u : UI σ) (desc : String) (ds : List Char) (hne : ds ≠ [])
    (hds : ∀ c ∈ ds, isDigit c = true)
    (hline : (outputLines (runCommand E u ("add" :: splitFields desc)).1).getD 0 "" =
      String.mk ("Created task ".data ++ ds ++ ".".data)) :
    getTaskID (String.mk ("Created task ".data ++ ds ++ ".".data)) = String.mk ds ∧
    newCalls u (createTask env E nowAge nowDue u desc) =
      ["add" :: splitFields desc, [String.mk ds, "export"]] := by
  refine ⟨getTaskID_confirmation ds hne hds, ?_⟩
  rw [newCalls_createTask, hline, getTaskID_confirmation ds hne hds]

/-- C6 on the sample engine, which answers `add` with `Created task 7.`: the
export is run for the identifier `7`. -/
theorem getTaskID_digits_to_export_witness :
    getTaskID "Created task 7." = "7" ∧
    newCalls (entryUI sampleEngine)
      (createTask sampleEnv sampleEngine nov2 nov2 (entryUI sampleEngine) "buy milk") =
      [["add", "buy", "milk"], ["7", "export"]] :=
  getTaskID_digits_to_export sampleEnv sampleEngine nov2 nov2 (entryUI sampleEngine) "buy milk"
    "7".data (by decide) (by decide) (by decide)


theorem RemoveRow_append_last (t : Table) (row : List TableCell) :
    RemoveRow (t ++ [row]) t.length = t := by
  unfold RemoveRow
  have h : ¬ t.length ≥ (t ++ [row]).length := by simp
  rw [if_neg h]
  induction t with
  | nil => rfl
  | cons r t ih =>
    simp only [List.cons_append, List.length_cons, List.eraseIdx_cons_succ]
    rw [ih (by simp)]

/-- A Create whose export deserializes to a list starting with `task`: the row
of `task` is appended. -/
theorem createTask_success {σ : Type} (env : Env) (E : Engine σ) (nowAge nowDue : Time)
    (u : UI σ) (desc : String) (task : Task) (rest : List Task)
    (h : unmarshalTasks env (createExport E u desc).1 = some (task :: rest)) :
    ∃ u1, createTask env E nowAge nowDue u desc = Outcome.running u1 ∧
      u1.taskTable = u.taskTable ++ [renderRow env nowAge nowDue task] := by
  rw [createTask_eq, h]
  refine ⟨_, rfl, ?_⟩
  simp only [hideNewTaskPage]
  rw [createExport_taskTable, insertRow_eq_append]

theorem completeTask_taskTable {σ : Type} (E : Engine σ) (u : UI σ) :
    (completeTask E u).taskTable = RemoveRow u.taskTable u.selectedRow := by
  unfold completeTask
  simp only [runCommand_taskTable]

/-- C9: a successful Create (its export deserializes to a list that starts with
the task `t`) leaves the rows of the table `L` in place and appends the row of
`t` as the last row; Complete on that row, for every engine and so whether or
not `done` succeeds, removes exactly it: the rows are those of `L` again. -/
theorem create_complete_round_trip {σ : Type} (env : Env) (E : Engine σ) (nowAge nowDue : Time)
    (u : UI σ) (desc : String) (t : Task) (rest : List Task)
    (hcreate : unmarshalTasks env (createExport E u desc).1 = some (t :: rest)) :
    ∃ u1, createTask env E nowAge nowDue u desc = Outcome.running u1 ∧
      u1.taskTable = u.taskTable ++ [renderRow env nowAge nowDue t] ∧
      u1.taskTable.take (GetRowCount u.taskTable) = u.taskTable ∧
      GetRowCount u1.taskTable = GetRowCount u.taskTable + 1 ∧
      ∀ (E2 : Engine σ) (u2 : UI σ), u2.taskTable = u1.taskTable →
        u2.selectedRow = GetRowCount u.taskTable →
        (completeTask E2 u2).taskTable = u.taskTable ∧
        newCalls u2 (Outcome.running (completeTask E2 u2)) =
          [[(GetCell u1.taskTable (GetRowCount u.taskTable) 0).Text, "done"]] := by
  obtain ⟨u1, h1, h2⟩ := createTask_success env E nowAge nowDue u desc t rest hcreate
  refine ⟨u1, h1, h2, ?_, ?_, ?_⟩
  · rw [h2]; simp [GetRowCount]
  · rw [h2]; simp [GetRowCount]
  · intro E2 u2 ht hs
    constructor
    · rw [completeTask_taskTable, ht, hs, h2]
      exact RemoveRow_append_last _ _
    · unfold newCalls completeTask
      simp only [Outcome.state, runCommand_calls, hs, ht]
      simp

/-- C9 on the sample engine: Create on the start-up table of two fixed rows
gives three rows, and Complete on the third gives the two rows back. -/
theorem create_complete_round_trip_witness :
    unmarshalTasks sampleEnv (createExport sampleEngine (entryUI sampleEngine) "buy milk").1 =
      some [sampleTask] ∧
    ∃ u1, createTask sampleEnv sampleEngine nov2 nov2 (entryUI sampleEngine) "buy milk" =
        Outcome.running u1 ∧
      (completeTask sampleEngine { u1 with selectedRow := 2 }).taskTable =
        (entryUI sampleEngine).taskTable :=
  ⟨by decide,
    (create_complete_round_trip sampleEnv sampleEngine nov2 nov2 (entryUI sampleEngine)
      "buy milk" sampleTask [] (by decide)).elim
      (fun u1 h => ⟨u1, h.1, (h.2.2.2.2 sampleEngine { u1 with selectedRow := 2 } rfl rfl).1⟩)⟩

/-- C7 at the failing input: the engine rejects the `add` (no output reaches
the program, the first line is empty and `getTaskID` gives the empty string),
yet the Create mutation goes on to export the empty identifier and appends the
row of the first task of the answer: the table has a row more than before. -/
theorem create_unmatched_line_appends_row :
    getTaskID ((outputLines (runCommand rejectingEngine (entryUI rejectingEngine)
      ("add" :: splitFields "")).1).getD 0 "") = "" ∧
    newCalls (entryUI rejectingEngine)
      (step sampleEnv rejectingEngine (entryUI rejectingEngine) (enterInput "")) =
      [["add"], ["", "export"]] ∧
    (step sampleEnv rejectingEngine (entryUI rejectingEngine) (enterInput "")).state.taskTable =
      (entryUI rejectingEngine).taskTable ++
        [renderRow sampleEnv (nov2 + 2 * 24 * hour) (nov2 + 2 * 24 * hour) sampleTask] ∧
    (step sampleEnv rejectingEngine (entryUI rejectingEngine) (enterInput "")).state.taskTable ≠
      (entryUI rejectingEngine).taskTable := by
  refine ⟨by decide, by decide, by decide, by decide⟩


/-- C10 (as stated): start-up succeeds on an engine without pending tasks, and
the Create mutation then stops the process: the export of the new task fails,
`runCommand` returns nothing, `json.Unmarshal` reports an error and the handler
panics. -/
theorem create_panics_after_startup :
    (startup sampleEnv brokenExportEngine sampleClock ()).isPanic = false ∧
    createExportFailed brokenExportEngine (entryUI brokenExportEngine) "buy milk" = true ∧
    step sampleEnv brokenExportEngine (entryUI brokenExportEngine) (enterInput "buy milk") =
      Outcome.panicked Panic.unmarshalError
        (createExport brokenExportEngine (entryUI brokenExportEngine) "buy milk").2 ∧
    (step sampleEnv brokenExportEngine (entryUI brokenExportEngine)
      (enterInput "buy milk")).isPanic = true := by
  refine ⟨by decide, by decide, ?_, by decide⟩
  show createTask sampleEnv brokenExportEngine (nov2 + 2 * 24 * hour) (nov2 + 2 * 24 * hour)
    (entryUI brokenExportEngine) "buy milk" = _
  rw [createTask_eq]
  have : unmarshalTasks sampleEnv
      (createExport brokenExportEngine (entryUI brokenExportEngine) "buy milk").1 = none := by
    decide
  rw [this]

theorem startup_isPanic {σ : Type} (env : Env) (E : Engine σ) (clock : Nat → Time × Time)
    (st : σ) :
    (startup env E clock st).isPanic = true ↔
      (unmarshalTasks env (runCommand E (initialUI st) ["+PENDING", "export"]).1 = none ∨
        env.runFails = true) := by
  unfold startup
  simp only []
  split
  · rename_i h; simp [Outcome.isPanic, h]
  · rename_i tasks h
    by_cases hr : env.runFails = true
    · simp [Outcome.isPanic, h, hr]
    · simp [Outcome.isPanic, h, hr]

theorem createExport_failed {σ : Type} (E : Engine σ) (u : UI σ) (desc : String)
    (h : createExportFailed E u desc = true) : (createExport E u desc).1 = "" := by
  unfold createExport
  exact runCommand_failed _ _ _ h

/-- C10 (amended): the deserialization failure of the bulk export is not the
only fatal condition.  The start of `main` stops the process exactly when the
bulk export cannot be deserialized or `app.Run()` returns an error (its two
`panic(err)`).  The Create mutation stops
the process, by the `panic(err)` after `json.Unmarshal`, when the export of the
new task fails or cannot be deserialized; when that export deserializes to a
list with a first task, the Create mutation does not stop the process and
appends the row of that task. -/
theorem deserialization_failures_fatal {σ : Type} (env : Env) (E : Engine σ)
    (clock : Nat → Time × Time) (st : σ) (nowAge nowDue : Time) (u : UI σ) (desc : String) :
    ((startup env E clock st).isPanic = true ↔
      (unmarshalTasks env (runCommand E (initialUI st) ["+PENDING", "export"]).1 = none ∨
        env.runFails = true)) ∧
    (unmarshalTasks env (runCommand E (initialUI st) ["+PENDING", "export"]).1 = none →
      startup env E clock st = Outcome.panicked Panic.unmarshalError
        (runCommand E (initialUI st) ["+PENDING", "export"]).2) ∧
    (unmarshalTasks env (runCommand E (initialUI st) ["+PENDING", "export"]).1 ≠ none →
      env.runFails = true →
      ∃ u0, startup env E clock st = Outcome.panicked Panic.runError u0) ∧
    (createExportFailed E u desc = true →
      createTask env E nowAge nowDue u desc =
        Outcome.panicked Panic.unmarshalError (createExport E u desc).2) ∧
    (unmarshalTasks env (createExport E u desc).1 = none →
      createTask env E nowAge nowDue u desc =
        Outcome.panicked Panic.unmarshalError (createExport E u desc).2) ∧
    (∀ (task : Task) (rest : List Task),
      unmarshalTasks env (createExport E u desc).1 = some (task :: rest) →
      ∃ u1, createTask env E nowAge nowDue u desc = Outcome.running u1 ∧
        u1.taskTable = u.taskTable ++ [renderRow env nowAge nowDue task]) := by
  have hnone : unmarshalTasks env (createExport E u desc).1 = none →
      createTask env E nowAge nowDue u desc =
        Outcome.panicked Panic.unmarshalError (createExport E u desc).2 := by
    intro h
    rw [createTask_eq, h]
  refine ⟨startup_isPanic env E clock st, ?_, ?_, ?_, hnone, ?_⟩
  · intro h
    unfold startup
    simp only [h]
  · intro h hr
    unfold startup
    simp only []
    split
    · rename_i h1; exact absurd h1 h
    · rw [if_pos hr]; exact ⟨_, rfl⟩
  · intro hf
    apply hnone
    rw [createExport_failed E u desc hf]
    simp [unmarshalTasks]
  · intro task rest h
    exact createTask_success env E nowAge nowDue u desc task rest h


/-! ### Delete needs the confirmation -/

theorem newCalls_of_append {σ : Type} (u : UI σ) (o : Outcome σ) (l : List (List String))
    (h : o.state.calls = u.calls ++ l) : newCalls u o = l := by
  unfold newCalls
  rw [h]
  simp

theorem runCommand_focus {σ : Type} (E : Engine σ) (u : UI σ) (args : List String) :
    (runCommand E u args).2.focus = u.focus := by
  unfold runCommand
  simp only []
  split <;> rfl

theorem isDeleteCall_add (toks : List String) : isDeleteCall ("add" :: toks) = false := by
  simp [isDeleteCall]

theorem isDeleteCall_single (a : String) (ha : a ≠ "delete") : isDeleteCall [a] = false := by
  have ha' : ¬ "delete" = a := fun h => ha h.symm
  simp [isDeleteCall, ha']

theorem isDeleteCall_pair (a b : String) (ha : a ≠ "delete") (hb : b ≠ "delete") :
    isDeleteCall [a, b] = false := by
  have ha' : ¬ "delete" = a := fun h => ha h.symm
  have hb' : ¬ "delete" = b := fun h => hb h.symm
  simp [isDeleteCall, ha', hb']

/-! #### Identifiers are never the word `delete` -/

theorem digitChar_isDigit (k : Nat) (h : k < 10) : (Nat.digitChar k).isDigit = true := by
  interval_cases k <;> decide

theorem toDigitsCore_isDigit (fuel : Nat) : ∀ (n : Nat) (ds : List Char),
    (∀ c ∈ ds, c.isDigit = true) → ∀ c ∈ Nat.toDigitsCore 10 fuel n ds, c.isDigit = true := by
  induction fuel with
  | zero => intro n ds hds c hc; exact hds c (by simpa [Nat.toDigitsCore] using hc)
  | succ fuel ih =>
    intro n ds hds c hc
    have hd : ∀ c ∈ Nat.digitChar (n % 10) :: ds, c.isDigit = true := by
      intro c hc
      rcases List.mem_cons.mp hc with rfl | hc
      · exact digitChar_isDigit _ (Nat.mod_lt _ (by omega))
      · exact hds c hc
    unfold Nat.toDigitsCore at hc
    simp only [] at hc
    split at hc
    · exact hd c hc
    · exact ih _ _ hd c hc

/-- The characters of `strconv.Itoa` are digits and the sign. -/
theorem Itoa_chars (n : Int) : ∀ c ∈ (Itoa n).data, c.isDigit = true ∨ c = dash := by
  intro c hc
  cases n with
  | ofNat m =>
    have : (Itoa (Int.ofNat m)).data = Nat.toDigitsCore 10 (m + 1) m [] := rfl
    rw [this] at hc
    exact Or.inl (toDigitsCore_isDigit _ _ _ (by simp) c hc)
  | negSucc m =>
    have : (Itoa (Int.negSucc m)).data =
        dash :: Nat.toDigitsCore 10 (m + 1 + 1) (m + 1) [] := rfl
    rw [this] at hc
    rcases List.mem_cons.mp hc with rfl | hc
    · exact Or.inr rfl
    · exact Or.inl (toDigitsCore_isDigit _ _ _ (by simp) c hc)

theorem Itoa_ne_delete (n : Int) : Itoa n ≠ "delete" := by
  intro h
  have hd : Char.ofNat 100 ∈ (Itoa n).data := by rw [h]; decide
  rcases Itoa_chars n _ hd with h1 | h1
  · exact absurd h1 (by decide)
  · exact absurd h1 (by decide)

theorem matchDigitsThenAny_cons (x : Char) (s : List Char) :
    matchDigitsThenAny (x :: s) =
      if isDigit x then
        match matchDigitsThenAny s with
        | some cap => some (x :: cap)
        | none =>
          match s with
          | [] => none
          | y :: _ => if isAnyButNewline y then some [x] else none
      else none := by
  rfl

theorem matchDigitsThenAny_isDigit : ∀ (s cap : List Char),
    matchDigitsThenAny s = some cap → ∀ c ∈ cap, isDigit c = true := by
  intro s
  induction s with
  | nil => intro cap h; simp [matchDigitsThenAny] at h
  | cons x s ih =>
    intro cap h
    rw [matchDigitsThenAny_cons] at h
    by_cases hx : isDigit x = true
    · simp only [hx, if_true] at h
      cases hrec : matchDigitsThenAny s with
      | some cap1 =>
        rw [hrec] at h
        simp only [Option.some.injEq] at h
        subst h
        intro c hc
        rcases List.mem_cons.mp hc with rfl | hc
        · exact hx
        · exact ih cap1 hrec c hc
      | none =>
        rw [hrec] at h
        cases s with
        | nil => simp at h
        | cons y s1 =>
          simp only [] at h
          split at h
          · simp only [Option.some.injEq] at h
            subst h
            intro c hc
            rw [List.mem_singleton] at hc
            exact hc ▸ hx
          · simp at h
    · simp [hx] at h

theorem matchHere_isDigit (s cap : List Char) (h : matchHere s = some cap) :
    ∀ c ∈ cap, isDigit c = true := by
  unfold matchHere at h
  cases hl : matchLiteral "Created task ".data s with
  | none => rw [hl] at h; simp at h
  | some rest =>
    rw [hl] at h
    exact matchDigitsThenAny_isDigit rest cap (by simpa using h)

theorem findStringSubmatch_isDigit : ∀ (s cap : List Char),
    findStringSubmatch s = some cap → ∀ c ∈ cap, isDigit c = true := by
  intro s
  induction s with
  | nil => intro cap h; exact matchHere_isDigit [] cap (by simpa [findStringSubmatch] using h)
  | cons x s ih =>
    intro cap h
    unfold findStringSubmatch at h
    cases hm : matchHere (x :: s) with
    | some cap1 =>
      rw [hm] at h
      simp only [Option.some.injEq] at h
      subst h
      exact matchHere_isDigit _ _ hm
    | none =>
      rw [hm] at h
      exact ih cap h

/-- What `getTaskID` returns is empty or a run of digits: never the word
`delete`. -/
theorem getTaskID_ne_delete (s : String) : getTaskID s ≠ "delete" := by
  unfold getTaskID
  cases h : findStringSubmatch s.data with
  | none => simp only []; decide
  | some cap =>
    simp only []
    intro heq
    have hcap : cap = "delete".data := congrArg String.data heq
    have := findStringSubmatch_isDigit s.data cap h (Char.ofNat 100) (by rw [hcap]; decide)
    exact absurd this (by decide)

/-! #### The ID column of the table -/

theorem GetCell_clean (t : Table) (h : idColumnClean t) (row : Nat) :
    (GetCell t row 0).Text ≠ "delete" := by
  unfold GetCell
  by_cases hlt : row < t.length
  · rw [List.getD_eq_getElem t [] hlt]
    exact h _ (List.getElem_mem hlt)
  · rw [List.getD_eq_default t [] (not_lt.mp hlt)]
    decide

theorem idColumnClean_insertRow (env : Env) (nowAge nowDue : Time) (t : Table) (task : Task)
    (h : idColumnClean t) : idColumnClean (insertRow env nowAge nowDue t task) := by
  rw [insertRow_eq_append]
  intro r hr
  rcases List.mem_append.mp hr with hr | hr
  · exact h r hr
  · rw [List.mem_singleton] at hr
    rw [hr, renderRow_id]
    exact Itoa_ne_delete _

theorem idColumnClean_RemoveRow (t : Table) (row : Nat) (h : idColumnClean t) :
    idColumnClean (RemoveRow t row) := by
  unfold RemoveRow
  split
  · exact h
  · intro r hr
    exact h r ((List.eraseIdx_sublist t row).subset hr)

theorem renderRows_clean (env : Env) (clock : Nat → Time × Time) (tasks : List Task) :
    ∀ k : Nat, idColumnClean (renderRows env clock k tasks) := by
  induction tasks with
  | nil => intro k r hr; simp [renderRows] at hr
  | cons task tasks ih =>
    intro k r hr
    simp only [renderRows, List.mem_cons] at hr
    rcases hr with rfl | hr
    · rw [renderRow_id]; exact Itoa_ne_delete _
    · exact ih (k + 1) r hr

theorem fixedRows_clean (tasks : List Task) :
    idColumnClean (setFixedRow (setFixedRow [] 0 taskHeaders) 1 (taskSeparators tasks)) := by
  intro r hr
  have hlen := setFixedRow_rows taskHeaders (taskSeparators tasks)
  obtain ⟨k, hk, rfl⟩ := List.getElem_of_mem hr
  have hk2 : k < 2 := by omega
  have hcell : ∀ row : Nat, row < 2 →
      (GetCell (setFixedRow (setFixedRow [] 0 taskHeaders) 1 (taskSeparators tasks)) row 0).Text
        ≠ "delete" := by
    intro row hrow
    interval_cases row
    · simp [setFixedRow, numberOfColumns, List.range, List.range.loop, GetCell_SetCell,
        taskHeaders, NewTableCell]
    · simp [setFixedRow, numberOfColumns, List.range, List.range.loop, GetCell_SetCell,
        taskSeparators, NewTableCell]
  have := hcell k hk2
  unfold GetCell at this
  rw [List.getD_eq_getElem _ [] hk] at this
  exact this

theorem idColumnClean_loadTable (env : Env) (clock : Nat → Time × Time) (tasks : List Task) :
    idColumnClean (loadTable env clock tasks) := by
  rw [loadTable_eq]
  intro r hr
  rcases List.mem_append.mp hr with hr | hr
  · exact fixedRows_clean _ r hr
  · exact renderRows_clean env clock _ 0 r hr

theorem deleteTask_calls {σ : Type} (E : Engine σ) (u : UI σ) (row : Nat) (taskID : String) :
    (deleteTask E u row taskID).calls = u.calls ++ [["rc.confirmation=off", taskID, "delete"]] := by
  unfold deleteTask
  simp only []
  split <;> simp only [runCommand_calls]

theorem buttonDelete_ne_buttonCancel : buttonDelete ≠ buttonCancel := by decide

/-- The calls of one turn of the event loop: the history grows by a list in
which a `delete` call occurs only when the modal holds the focus and the event
is the button Delete. -/
theorem step_calls {σ : Type} (env : Env) (E : Engine σ) (u : UI σ) (i : Input)
    (hclean : idColumnClean u.taskTable) :
    ∃ l, (step env E u i).state.calls = u.calls ++ l ∧
      ∀ args ∈ l, isDeleteCall args = true →
        u.focus = Focus.deleteTaskModal ∧ i.event = Event.button buttonDelete := by
  unfold step
  cases hev : i.event with
  | rune c =>
    simp only []
    by_cases h1 : c = '1'
    · exact ⟨[], by simp [h1, Outcome.state], by simp⟩
    by_cases h2 : c = '2'
    · exact ⟨[], by simp [h1, h2, Outcome.state], by simp⟩
    simp only [h1, h2, if_false]
    cases hf : u.focus with
    | taskTable =>
      simp only [Outcome.state, taskTableCapture]
      by_cases ha : c = 'a'
      · exact ⟨[], by simp [ha, openNewTask], by simp⟩
      by_cases he : c = 'e'
      · refine ⟨[[(GetCell u.taskTable u.selectedRow 0).Text, "edit"]], ?_, ?_⟩
        · simp [ha, he, editTask, runCommand_calls]
        · intro args hargs hdel
          rw [List.mem_singleton] at hargs
          subst hargs
          rw [isDeleteCall_pair _ _ (GetCell_clean _ hclean _) (by decide)] at hdel
          exact absurd hdel (by simp)
      by_cases hd : c = 'd'
      · refine ⟨[[(GetCell u.taskTable u.selectedRow 0).Text, "done"]], ?_, ?_⟩
        · simp [ha, he, hd, completeTask, runCommand_calls]
        · intro args hargs hdel
          rw [List.mem_singleton] at hargs
          subst hargs
          rw [isDeleteCall_pair _ _ (GetCell_clean _ hclean _) (by decide)] at hdel
          exact absurd hdel (by simp)
      by_cases hx : c = 'x'
      · exact ⟨[], by simp [ha, he, hd, hx, openDeleteTask], by simp⟩
      exact ⟨[], by simp [ha, he, hd, hx], by simp⟩
    | descriptionTextView => exact ⟨[], by simp [Outcome.state], by simp⟩
    | newTaskInputField => exact ⟨[], by simp [Outcome.state], by simp⟩
    | deleteTaskModal => exact ⟨[], by simp [Outcome.state], by simp⟩
    | mainFlex => exact ⟨[], by simp [Outcome.state], by simp⟩
  | keyEsc =>
    simp only []
    cases hf : u.focus with
    | taskTable => exact ⟨[], by simp [Outcome.state], by simp⟩
    | descriptionTextView => exact ⟨[], by simp [Outcome.state], by simp⟩
    | newTaskInputField => exact ⟨[], by simp [Outcome.state, hideNewTaskPage], by simp⟩
    | deleteTaskModal =>
      refine ⟨[], ?_, by simp⟩
      simp only [Outcome.state, modalDone, hideDeleteTaskPage]
      cases u.doneFunc with
      | none => simp
      | some p => simp [buttonCancel, buttonDelete]
    | mainFlex => exact ⟨[], by simp [Outcome.state], by simp⟩
  | keyEnter text =>
    simp only []
    cases hf : u.focus with
    | taskTable => exact ⟨[], by simp [Outcome.state], by simp⟩
    | descriptionTextView => exact ⟨[], by simp [Outcome.state], by simp⟩
    | newTaskInputField =>
      simp only []
      refine ⟨_, by rw [createTask_calls, createExport_calls], ?_⟩
      intro args hargs hdel
      simp only [List.mem_cons, List.mem_singleton, List.not_mem_nil, or_false] at hargs
      rcases hargs with rfl | rfl
      · rw [isDeleteCall_add] at hdel
        exact absurd hdel (by simp)
      · rw [isDeleteCall_pair _ _ (getTaskID_ne_delete _) (by decide)] at hdel
        exact absurd hdel (by simp)
    | deleteTaskModal => exact ⟨[], by simp [Outcome.state], by simp⟩
    | mainFlex => exact ⟨[], by simp [Outcome.state], by simp⟩
  | button label =>
    simp only []
    cases hf : u.focus with
    | taskTable => exact ⟨[], by simp [Outcome.state], by simp⟩
    | descriptionTextView => exact ⟨[], by simp [Outcome.state], by simp⟩
    | newTaskInputField => exact ⟨[], by simp [Outcome.state], by simp⟩
    | deleteTaskModal =>
      simp only [Outcome.state, modalDone]
      cases hdf : u.doneFunc with
      | none => exact ⟨[], by simp, by simp⟩
      | some p =>
        obtain ⟨row, taskID⟩ := p
        simp only []
        by_cases hc : label = buttonCancel
        · exact ⟨[], by simp [hc, hideDeleteTaskPage], by simp⟩
        by_cases hd : label = buttonDelete
        · refine ⟨[["rc.confirmation=off", taskID, "delete"]], ?_, ?_⟩
          · rw [if_neg hc, if_pos hd]
            exact deleteTask_calls E u row taskID
          · intro _ _ _
            exact ⟨trivial, by rw [hd]⟩
        exact ⟨[], by simp [hc, hd], by simp⟩
    | mainFlex => exact ⟨[], by simp [Outcome.state], by simp⟩
  | select row =>
    simp only []
    cases hf : u.focus with
    | taskTable =>
      simp only [Outcome.state, selectionChanged]
      by_cases h0 : row = 0
      · exact ⟨[], by simp [h0], by simp⟩
      · refine ⟨[[(GetCell u.taskTable row 0).Text]], by simp [h0, runCommand_calls], ?_⟩
        intro args hargs hdel
        rw [List.mem_singleton] at hargs
        subst hargs
        rw [isDeleteCall_single _ (GetCell_clean _ hclean _)] at hdel
        exact absurd hdel (by simp)
    | descriptionTextView => exact ⟨[], by simp [Outcome.state], by simp⟩
    | newTaskInputField => exact ⟨[], by simp [Outcome.state], by simp⟩
    | deleteTaskModal => exact ⟨[], by simp [Outcome.state], by simp⟩
    | mainFlex => exact ⟨[], by simp [Outcome.state], by simp⟩


theorem createExport_focus {σ : Type} (E : Engine σ) (u : UI σ) (desc : String) :
    (createExport E u desc).2.focus = u.focus := by
  unfold createExport
  simp only [runCommand_focus]

theorem createTask_focus {σ : Type} (env : Env) (E : Engine σ) (nowAge nowDue : Time)
    (u : UI σ) (desc : String) (h : u.focus = Focus.newTaskInputField) :
    (createTask env E nowAge nowDue u desc).state.focus ≠ Focus.deleteTaskModal := by
  rw [createTask_eq]
  split
  · simp [Outcome.state, createExport_focus, h]
  · simp [Outcome.state, createExport_focus, h]
  · simp [Outcome.state, hideNewTaskPage]

theorem deleteTask_focus {σ : Type} (E : Engine σ) (u : UI σ) (row : Nat) (taskID : String) :
    (deleteTask E u row taskID).focus ≠ Focus.deleteTaskModal := by
  unfold deleteTask
  simp only []
  split
  · simp
  · simp only [topPageFocus]
    split
    · simp
    · simp

/-- The modal gets the focus only by the key `x` on the table. -/
theorem step_enters_confirm {σ : Type} (env : Env) (E : Engine σ) (u : UI σ) (i : Input)
    (hafter : (step env E u i).state.focus = Focus.deleteTaskModal)
    (hbefore : u.focus ≠ Focus.deleteTaskModal) :
    u.focus = Focus.taskTable ∧ i.event = Event.rune 'x' := by
  unfold step at hafter
  cases hev : i.event with
  | rune c =>
    simp only [hev] at hafter
    by_cases h1 : c = '1'
    · simp [h1, Outcome.state] at hafter
    by_cases h2 : c = '2'
    · simp [h1, h2, Outcome.state] at hafter
    simp only [h1, h2, if_false] at hafter
    cases hf : u.focus with
    | taskTable =>
      refine ⟨rfl, ?_⟩
      simp only [hf, Outcome.state, taskTableCapture] at hafter
      by_cases ha : c = 'a'
      · simp [ha, openNewTask, topPageFocus] at hafter
      by_cases he : c = 'e'
      · simp [ha, he, editTask, runCommand_focus, hf] at hafter
      by_cases hd : c = 'd'
      · simp [ha, he, hd, completeTask, runCommand_focus, hf] at hafter
      by_cases hx : c = 'x'
      · rw [hx]
      · simp [ha, he, hd, hx, hf] at hafter
    | descriptionTextView => simp [hf, Outcome.state] at hafter
    | newTaskInputField => simp [hf, Outcome.state] at hafter
    | deleteTaskModal => exact absurd hf hbefore
    | mainFlex => simp [hf, Outcome.state] at hafter
  | keyEsc =>
    simp only [hev] at hafter
    cases hf : u.focus with
    | taskTable => simp [hf, Outcome.state] at hafter
    | descriptionTextView => simp [hf, Outcome.state] at hafter
    | newTaskInputField => simp [hf, Outcome.state, hideNewTaskPage] at hafter
    | deleteTaskModal => exact absurd hf hbefore
    | mainFlex => simp [hf, Outcome.state] at hafter
  | keyEnter text =>
    simp only [hev] at hafter
    cases hf : u.focus with
    | taskTable => simp [hf, Outcome.state] at hafter
    | descriptionTextView => simp [hf, Outcome.state] at hafter
    | newTaskInputField =>
      simp only [hf] at hafter
      exact absurd hafter (createTask_focus env E _ _ u text hf)
    | deleteTaskModal => exact absurd hf hbefore
    | mainFlex => simp [hf, Outcome.state] at hafter
  | button label =>
    simp only [hev] at hafter
    cases hf : u.focus with
    | taskTable => simp [hf, Outcome.state] at hafter
    | descriptionTextView => simp [hf, Outcome.state] at hafter
    | newTaskInputField => simp [hf, Outcome.state] at hafter
    | deleteTaskModal => exact absurd hf hbefore
    | mainFlex => simp [hf, Outcome.state] at hafter
  | select row =>
    simp only [hev] at hafter
    cases hf : u.focus with
    | taskTable =>
      simp only [hf, Outcome.state, selectionChanged] at hafter
      by_cases h0 : row = 0
      · simp [h0, hf] at hafter
      · simp [h0, runCommand_focus, hf] at hafter
    | descriptionTextView => simp [hf, Outcome.state] at hafter
    | newTaskInputField => simp [hf, Outcome.state] at hafter
    | deleteTaskModal => exact absurd hf hbefore
    | mainFlex => simp [hf, Outcome.state] at hafter

theorem modalDone_empty {σ : Type} (E : Engine σ) (u : UI σ) : modalDone E u "" = u := by
  unfold modalDone
  split
  · rfl
  · simp [buttonCancel, buttonDelete]

/-- Cancel, by the button or by Escape, while the modal holds the focus: no
command is run and the table and the engine stay as they are. -/
theorem step_cancel {σ : Type} (env : Env) (E : Engine σ) (u : UI σ) (i : Input)
    (hf : u.focus = Focus.deleteTaskModal)
    (hev : i.event = Event.button buttonCancel ∨ i.event = Event.keyEsc) :
    ∃ u1, step env E u i = Outcome.running u1 ∧ u1.calls = u.calls ∧
      u1.taskTable = u.taskTable ∧ u1.engine = u.engine := by
  unfold step
  rcases hev with hev | hev
  · simp only [hev, hf, modalDone]
    cases u.doneFunc with
    | none => exact ⟨u, rfl, rfl, rfl, rfl⟩
    | some p => exact ⟨hideDeleteTaskPage u, by simp, rfl, rfl, rfl⟩
  · simp only [hev, hf, modalDone_empty]
    exact ⟨hideDeleteTaskPage u, rfl, rfl, rfl, rfl⟩

/-- An execution that leads to the modal holding the focus either started there
or passed through the key `x` on the table. -/
theorem run_reaches_confirm {σ : Type} (env : Env) (E : Engine σ) :
    ∀ (inputs : List Input) (u0 u : UI σ), run env E u0 inputs = Outcome.running u →
      u.focus = Focus.deleteTaskModal →
      u0.focus = Focus.deleteTaskModal ∨
      ∃ (before : List Input) (x : Input) (after : List Input) (v : UI σ),
        inputs = before ++ x :: after ∧ run env E u0 before = Outcome.running v ∧
        v.focus = Focus.taskTable ∧ x.event = Event.rune 'x' ∧
        (step env E v x).state.focus = Focus.deleteTaskModal := by
  intro inputs
  induction inputs with
  | nil =>
    intro u0 u hrun hfoc
    simp only [run] at hrun
    cases hrun
    exact Or.inl hfoc
  | cons i0 rest ih =>
    intro u0 u hrun hfoc
    simp only [run] at hrun
    cases hstep : step env E u0 i0 with
    | panicked p u1 => rw [hstep] at hrun; cases hrun
    | running u1 =>
      rw [hstep] at hrun
      rcases ih u1 u hrun hfoc with h1 | ⟨before, x, after, v, hsplit, hrunv, hv, hx, hent⟩
      · by_cases h0 : u0.focus = Focus.deleteTaskModal
        · exact Or.inl h0
        · right
          have hafter : (step env E u0 i0).state.focus = Focus.deleteTaskModal := by
            rw [hstep]; exact h1
          obtain ⟨ht, hx⟩ := step_enters_confirm env E u0 i0 hafter h0
          exact ⟨[], i0, rest, u0, rfl, rfl, ht, hx, hafter⟩
      · right
        refine ⟨i0 :: before, x, after, v, by rw [hsplit]; rfl, ?_, hv, hx, hent⟩
        simp only [run, hstep]
        exact hrunv

theorem mode_confirm_iff {σ : Type} (u : UI σ) :
    u.mode = Mode.ConfirmDelete ↔ u.focus = Focus.deleteTaskModal := by
  unfold UI.mode
  cases u.focus <;> simp

theorem mode_normal_of_taskTable {σ : Type} (u : UI σ) (h : u.focus = Focus.taskTable) :
    u.mode = Mode.Normal := by
  unfold UI.mode
  rw [h]



theorem deleteTask_taskTable {σ : Type} (E : Engine σ) (u : UI σ) (row : Nat)
    (taskID : String) : (deleteTask E u row taskID).taskTable = RemoveRow u.taskTable row := by
  unfold deleteTask
  simp only []
  split <;> simp only [runCommand_taskTable]

theorem createTask_clean {σ : Type} (env : Env) (E : Engine σ) (nowAge nowDue : Time)
    (u : UI σ) (desc : String) (h : idColumnClean u.taskTable) :
    idColumnClean (createTask env E nowAge nowDue u desc).state.taskTable := by
  rw [createTask_eq]
  split
  · simpa [Outcome.state, createExport_taskTable] using h
  · simpa [Outcome.state, createExport_taskTable] using h
  · simp only [Outcome.state, hideNewTaskPage, createExport_taskTable]
    exact idColumnClean_insertRow env nowAge nowDue _ _ h

theorem modalDone_clean {σ : Type} (E : Engine σ) (u : UI σ) (label : String)
    (h : idColumnClean u.taskTable) : idColumnClean (modalDone E u label).taskTable := by
  unfold modalDone
  split
  · exact h
  · split
    · exact h
    · split
      · rw [deleteTask_taskTable]
        exact idColumnClean_RemoveRow _ _ h
      · exact h

/-- One turn of the event loop keeps the word `delete` out of the ID column. -/
theorem step_clean {σ : Type} (env : Env) (E : Engine σ) (u : UI σ) (i : Input)
    (h : idColumnClean u.taskTable) : idColumnClean (step env E u i).state.taskTable := by
  unfold step
  cases i.event with
  | rune c =>
    simp only []
    by_cases h1 : c = '1'
    · simpa [h1, Outcome.state] using h
    by_cases h2 : c = '2'
    · simpa [h1, h2, Outcome.state] using h
    simp only [h1, h2, if_false]
    cases u.focus with
    | taskTable =>
      simp only [Outcome.state, taskTableCapture]
      by_cases ha : c = 'a'
      · simpa [ha, openNewTask] using h
      by_cases he : c = 'e'
      · simpa [ha, he, editTask, runCommand_taskTable] using h
      by_cases hd : c = 'd'
      · rw [if_neg ha, if_neg he, if_pos hd, completeTask_taskTable]
        exact idColumnClean_RemoveRow _ _ h
      by_cases hx : c = 'x'
      · simpa [ha, he, hd, hx, openDeleteTask] using h
      simpa [ha, he, hd, hx] using h
    | descriptionTextView => exact h
    | newTaskInputField => exact h
    | deleteTaskModal => exact h
    | mainFlex => exact h
  | keyEsc =>
    simp only []
    cases u.focus with
    | taskTable => exact h
    | descriptionTextView => exact h
    | newTaskInputField => exact h
    | deleteTaskModal =>
      simp only [Outcome.state, modalDone_empty]
      exact h
    | mainFlex => exact h
  | keyEnter text =>
    simp only []
    cases u.focus with
    | taskTable => exact h
    | descriptionTextView => exact h
    | newTaskInputField => exact createTask_clean env E _ _ u text h
    | deleteTaskModal => exact h
    | mainFlex => exact h
  | button label =>
    simp only []
    cases u.focus with
    | taskTable => exact h
    | descriptionTextView => exact h
    | newTaskInputField => exact h
    | deleteTaskModal => exact modalDone_clean E u label h
    | mainFlex => exact h
  | select row =>
    simp only []
    cases u.focus with
    | taskTable =>
      simp only [Outcome.state, selectionChanged]
      by_cases h0 : row = 0
      · simpa [h0] using h
      · simpa [h0, runCommand_taskTable] using h
    | descriptionTextView => exact h
    | newTaskInputField => exact h
    | deleteTaskModal => exact h
    | mainFlex => exact h

theorem run_clean {σ : Type} (env : Env) (E : Engine σ) :
    ∀ (inputs : List Input) (u0 u : UI σ), run env E u0 inputs = Outcome.running u →
      idColumnClean u0.taskTable → idColumnClean u.taskTable := by
  intro inputs
  induction inputs with
  | nil =>
    intro u0 u hrun h
    simp only [run] at hrun
    cases hrun
    exact h
  | cons i0 rest ih =>
    intro u0 u hrun h
    simp only [run] at hrun
    have hc := step_clean env E u0 i0 h
    cases hstep : step env E u0 i0 with
    | panicked p u1 => rw [hstep] at hrun; cases hrun
    | running u1 =>
      rw [hstep] at hrun hc
      exact ih u1 u hrun hc

/-- The state in which the event loop starts: the table has the focus, the ID
column is free of the word `delete`, and start-up has run no `delete`. -/
theorem startup_running {σ : Type} (env : Env) (E : Engine σ) (clock : Nat → Time × Time)
    (st : σ) (u0 : UI σ) (h : startup env E clock st = Outcome.running u0) :
    u0.focus = Focus.taskTable ∧ idColumnClean u0.taskTable ∧
    ∀ args ∈ u0.calls, isDeleteCall args = false := by
  unfold startup at h
  simp only [] at h
  split at h
  · cases h
  · rename_i tasks _
    have hclean := idColumnClean_loadTable env clock tasks
    split at h
    · cases h
    · simp only [Outcome.running.injEq] at h
      subst h
      split
      · refine ⟨rfl, ?_, ?_⟩
        · simpa [runCommand_taskTable] using hclean
        · intro args hargs
          simp only [runCommand_calls, initialUI, List.nil_append, List.cons_append,
            List.mem_cons, List.mem_singleton, List.not_mem_nil, or_false] at hargs
          rcases hargs with rfl | rfl
          · decide
          · exact isDeleteCall_single _ (GetCell_clean _ hclean _)
      · refine ⟨rfl, ?_, ?_⟩
        · simpa [runCommand_taskTable] using hclean
        · intro args hargs
          simp only [runCommand_calls, initialUI, List.nil_append,
            List.mem_singleton] at hargs
          subst hargs
          decide

/-- C8: in every execution of the program, start-up and then the event loop on
any inputs, the engine is run with the `delete` subcommand (the word `delete`
among the arguments of a command line that is no `add`) only by a turn in which
the mode is ConfirmDelete and the event is the button Delete, and the execution
has then passed through the key `x` in Normal mode (on the table), which
entered ConfirmDelete; start-up itself runs no `delete`; ConfirmDelete is
entered only by the key `x` in Normal mode; and Cancel, by the button or by
Escape, in ConfirmDelete runs no command and leaves the rows of the table and
the engine as they are. -/
theorem delete_requires_confirmation {σ : Type} (env : Env) (E : Engine σ)
    (clock : Nat → Time × Time) (st : σ) (u0 : UI σ)
    (hstart : startup env E clock st = Outcome.running u0) (inputs : List Input) (u : UI σ)
    (hrun : run env E u0 inputs = Outcome.running u) (i : Input) :
    u0.mode = Mode.Normal ∧
    (∀ args ∈ u0.calls, isDeleteCall args = false) ∧
    ((∃ args ∈ newCalls u (step env E u i), isDeleteCall args = true) →
      u.mode = Mode.ConfirmDelete ∧ i.event = Event.button buttonDelete ∧
      ∃ (before : List Input) (x : Input) (after : List Input) (v : UI σ),
        inputs = before ++ x :: after ∧ run env E u0 before = Outcome.running v ∧
        v.mode = Mode.Normal ∧ v.focus = Focus.taskTable ∧ x.event = Event.rune 'x' ∧
        (step env E v x).state.mode = Mode.ConfirmDelete) ∧
    ((step env E u i).state.mode = Mode.ConfirmDelete → u.mode ≠ Mode.ConfirmDelete →
      u.mode = Mode.Normal ∧ u.focus = Focus.taskTable ∧ i.event = Event.rune 'x') ∧
    (u.mode = Mode.ConfirmDelete →
      (i.event = Event.button buttonCancel ∨ i.event = Event.keyEsc) →
      ∃ u1, step env E u i = Outcome.running u1 ∧ newCalls u (step env E u i) = [] ∧
        u1.taskTable = u.taskTable ∧ u1.engine = u.engine) := by
  obtain ⟨hfoc0, hclean0, hcalls0⟩ := startup_running env E clock st u0 hstart
  have hclean : idColumnClean u.taskTable := run_clean env E inputs u0 u hrun hclean0
  refine ⟨mode_normal_of_taskTable u0 hfoc0, hcalls0, ?_, ?_, ?_⟩
  · rintro ⟨args, hargs, hdel⟩
    obtain ⟨l, hl, honly⟩ := step_calls env E u i hclean
    rw [newCalls_of_append u _ l hl] at hargs
    obtain ⟨hfoc, hev⟩ := honly args hargs hdel
    refine ⟨(mode_confirm_iff u).mpr hfoc, hev, ?_⟩
    rcases run_reaches_confirm env E inputs u0 u hrun hfoc with h | ⟨b, x, a, v, h1, h2, h3, h4, h5⟩
    · rw [hfoc0] at h
      exact absurd h (by decide)
    · exact ⟨b, x, a, v, h1, h2, mode_normal_of_taskTable v h3, h3, h4,
        (mode_confirm_iff _).mpr h5⟩
  · intro hafter hbefore
    have hb : u.focus ≠ Focus.deleteTaskModal := fun h => hbefore ((mode_confirm_iff u).mpr h)
    obtain ⟨ht, hx⟩ := step_enters_confirm env E u i ((mode_confirm_iff _).mp hafter) hb
    exact ⟨mode_normal_of_taskTable u ht, ht, hx⟩
  · intro hmode hev
    obtain ⟨u1, hstep, hcalls, htab, heng⟩ :=
      step_cancel env E u i ((mode_confirm_iff u).mp hmode) hev
    refine ⟨u1, hstep, ?_, htab, heng⟩
    apply newCalls_of_append
    rw [hstep]
    simp [Outcome.state, hcalls]

/-- C8 on the engine with one pending task: after start-up the key `x` opens
the confirmation for the selected row of task 7, and the button Delete then
runs the `delete` command. -/
theorem delete_requires_confirmation_witness :
    startup sampleEnv pendingEngine sampleClock () = Outcome.running pendingUI ∧
    run sampleEnv pendingEngine pendingUI [inputAt (Event.rune 'x')] =
      Outcome.running (openDeleteTask pendingUI) ∧
    newCalls (openDeleteTask pendingUI)
      (step sampleEnv pendingEngine (openDeleteTask pendingUI)
        (inputAt (Event.button buttonDelete))) = [["rc.confirmation=off", "7", "delete"]] ∧
    (openDeleteTask pendingUI).mode = Mode.ConfirmDelete :=
  ⟨rfl, rfl, by decide,
    ((delete_requires_confirmation sampleEnv pendingEngine sampleClock () pendingUI rfl
      [inputAt (Event.rune 'x')] (openDeleteTask pendingUI) rfl
      (inputAt (Event.button buttonDelete))).2.2.1
      ⟨["rc.confirmation=off", "7", "delete"], by decide, by decide⟩).1⟩

end TaskwarriorTui
